import Mathlib

/-! Verification of the `env_to_config_toml` merge core.

A shallow embedding of `src/config-cli/src/main.rs`: the collection of
key/value pairs from `.env` files (`Args::get_env_vars`) and the merge of
those pairs into a TOML document (`Args::merge_existing_toml`,
`Args::add_prefix`), together with proofs of the specification's claims.

Strings are modelled by Lean's `String` (in this toolchain a wrapper around
`List Char`); most text processing is done on the underlying character
lists, which mirrors Rust's `str` operations character by character.

The external `toml` crate (parser, order-preserving `toml::map::Map`, and
`toml::to_string_pretty`) is not part of the repository's sources; those
three collaborators are modelled from the spec, restricted to the fragment
of TOML the merge core exercises (documents whose root maps keys to string
scalars and to sections of string entries).  Each such definition carries a
`Modelled from the spec:` comment.
-/

namespace EnvToConfigToml

/-! ## Character-list utilities (models of Rust `str` operations) -/

/-- Model of Rust's whitespace test used by `str::trim` (Lean's `Char.isWhitespace`). -/
def isWs (c : Char) : Bool := c.isWhitespace

/-- Model of Rust `str::trim`: drop leading and trailing whitespace characters. -/
def trimChars (l : List Char) : List Char :=
  ((l.dropWhile isWs).reverse.dropWhile isWs).reverse

/-- Split a character list at every newline.  Always returns a non-empty list
of newline-free pieces; `split "" = [[]]`. -/
def splitNl : List Char → List (List Char)
  | [] => [[]]
  | c :: rest =>
    if c = '\n' then [] :: splitNl rest
    else
      match splitNl rest with
      | [] => [[c]]
      | l :: ls => (c :: l) :: ls

/-- Model of Rust `str::lines`: split at `'\n'`, drop the final empty piece
produced by a trailing newline, and strip one trailing `'\r'` per line. -/
def rustLinesChars (s : List Char) : List (List Char) :=
  let parts := splitNl s
  let parts := if parts.getLast? = some [] then parts.dropLast else parts
  parts.map (fun l => if l.getLast? = some '\r' then l.dropLast else l)

/-- Model of Rust `[&str]::join`: interleave `sep` between the pieces. -/
def joinWith (sep : List Char) : List (List Char) → List Char
  | [] => []
  | [l] => l
  | l :: ls => l ++ sep ++ joinWith sep ls

/-- Specialization of `joinWith` to a newline separator, the model of `join("\n")`. -/
def joinNl : List (List Char) → List Char := joinWith ['\n']

/-- Model of Rust `Vec::insert` at an in-bounds index.  (Rust panics past the
end; the merge core only ever inserts at in-bounds indices or exactly at the
length, where both agree with appending.) -/
def vecInsert : List α → Nat → α → List α
  | l, 0, a => a :: l
  | [], _ + 1, a => [a]
  | x :: l, n + 1, a => x :: vecInsert l n a

/-- Byte-lexicographic order on character lists, by code point; for valid
UTF-8 this agrees with Rust's byte-wise `str` ordering. -/
def charListLe : List Char → List Char → Bool
  | [], _ => true
  | _ :: _, [] => false
  | a :: as, b :: bs =>
    if a.toNat < b.toNat then true
    else if b.toNat < a.toNat then false
    else charListLe as bs

/-- Model of Rust `str::to_lowercase`, restricted to ASCII (per-character
lowercasing). -/
def lowerChars (s : String) : List Char := s.data.map Char.toLower

/-- The sort key used by both sorts in `get_env_vars`:
`a.to_lowercase() <= b.to_lowercase()`. -/
def keyLe (a b : String) : Prop := charListLe (lowerChars a) (lowerChars b) = true

instance : DecidableRel keyLe := fun a b => inferInstanceAs (Decidable (_ = true))

/-! ## Value flattening (`get_env_vars`, lines 112–117)

```rust
let value = value
    .trim()
    .lines()
    .filter(|s| !s.starts_with("#"))
    .collect::<Vec<_>>()
    .join("||||");
```
-/

/-- The flattening applied to each raw value in `get_env_vars`. -/
def flattenValue (value : String) : String :=
  String.mk (joinWith "||||".data
    ((rustLinesChars (trimChars value.data)).filter
      (fun l => !(List.isPrefixOf "#".data l))))

/-! ## Collection (`Args::get_env_vars`, lines 105–134) -/

/-- A source file as the collector sees it: its path string and the ordered
key/value mapping produced by the external per-file parser
(`env_file_reader::read_file`). -/
structure EnvFile where
  path : String
  entries : List (String × String)
deriving DecidableEq

/-- The error type `MergeError` from the source. -/
inductive MergeError where
  | DuplicateKey : String → String → String → MergeError
  | NoFileFound : String → MergeError
deriving DecidableEq

/-- The collector's accumulated state: `(key, flattened value, defining path)`
triples in insertion order.  The source keeps two hash maps (`env_vars` and
`env_paths_by_key`) that are always inserted into together with the same key;
one association list carries the same information. -/
abbrev Seen := List (String × String × String)

/-- Model of `env_vars.contains_key(&key)`. -/
def containsKey (seen : Seen) (k : String) : Bool :=
  seen.any (fun x => x.1 == k)

/-- Model of `env_paths_by_key.get(&key).unwrap()`; only evaluated under a
`containsKey` guard, exactly as the source only unwraps after
`contains_key` returned true. -/
def pathOfKey (seen : Seen) (k : String) : String :=
  match seen.find? (fun x => x.1 == k) with
  | some x => x.2.2
  | none => ""

/-- The inner loop of `get_env_vars`: fold one file's entries into the
accumulated state, failing on a key that is already present. -/
def processFile (path : String) : List (String × String) → Seen →
    Except MergeError Seen
  | [], seen => .ok seen
  | (k, v) :: rest, seen =>
    if containsKey seen k then
      .error (.DuplicateKey k path (pathOfKey seen k))
    else
      processFile path rest (seen ++ [(k, flattenValue v, path)])

/-- The outer loop of `get_env_vars`: fold the files, in order, into the
accumulated state. -/
def collectFiles : List EnvFile → Seen → Except MergeError Seen
  | [], seen => .ok seen
  | f :: fs, seen =>
    match processFile f.path f.entries seen with
    | .error e => .error e
    | .ok seen' => collectFiles fs seen'

/-- Model of `env_paths.sort_by_key(|path| path.to_str().unwrap().to_lowercase())`:
Rust's stable sort, modelled by insertion sort (also stable) with the
case-insensitive path key. -/
def sortFiles (files : List EnvFile) : List EnvFile :=
  List.insertionSort (fun f g => keyLe f.path g.path) files

/-- The order of `env_vars.sort_by_key(|(key, _)| key.to_lowercase())` on the final pairs. -/
def entryLe (a b : String × String) : Prop := keyLe a.1 b.1

instance : DecidableRel entryLe := fun a b => inferInstanceAs (Decidable (keyLe _ _))

/-- Model of `Args::get_env_vars`, from the glob result onward.  `files` is the list of
existing files matched by the glob (glob resolution itself is an external
collaborator).  `hashIter` models the unspecified iteration order of the Rust
`HashMap` from which the final vector is collected: it is an arbitrary
reordering applied to the insertion-ordered pairs, constrained to a
permutation in every theorem that uses it. -/
def get_env_vars (pattern : String) (files : List EnvFile)
    (hashIter : List (String × String) → List (String × String)) :
    Except MergeError (List (String × String)) :=
  if files.isEmpty then .error (.NoFileFound pattern)
  else
    match collectFiles (sortFiles files) [] with
    | .error e => .error e
    | .ok seen =>
      .ok (List.insertionSort entryLe (hashIter (seen.map (fun x => (x.1, x.2.1)))))

/-- The keys a file defines. -/
def keysOfFile (f : EnvFile) : List String := f.entries.map Prod.fst

/-! ## The TOML document model

`toml::Value`, restricted to the fragment the merge core exercises: string
scalars and tables.  The table type models `toml::map::Map`.

Modelled from the spec: the repository's `Cargo.toml` (which fixes the `toml`
crate's features) is not among the sources; the spec prescribes an
order-preserving root mapping ("appending the section preserves all prior
top-level section order"), so tables are modelled as insertion-ordered
association lists whose `insert` replaces an existing key's value in place
and appends a new key at the end. -/

inductive Toml where
  | str : String → Toml
  | table : List (String × Toml) → Toml

/-- Model of `Map::get`. -/
def tableGet (t : List (String × Toml)) (k : String) : Option Toml :=
  match t.find? (fun kv => kv.1 == k) with
  | some kv => some kv.2
  | none => none

/-- Model of `Map::contains_key`. -/
def tableContains (t : List (String × Toml)) (k : String) : Bool :=
  (tableGet t k).isSome

/-- Model of `Map::insert` with order-preserving semantics: an existing key keeps its
position and gets the new value; a new key is appended. -/
def tableInsert : List (String × Toml) → String → Toml → List (String × Toml)
  | [], k, v => [(k, v)]
  | (k', v') :: rest, k, v =>
    if k' == k then (k', v) :: rest else (k', v') :: tableInsert rest k v

/-- Model of `table.entry("env".to_owned()).or_insert_with(|| Value::Table(Table::new()))`:
the root table with an `env` key guaranteed present, an empty section having
been appended when it was absent. -/
def ensureEnv (t : List (String × Toml)) : List (String × Toml) :=
  if tableContains t "env" then t else t ++ [("env", .table [])]

/-- The `for (key, value) in env_vars { env_table.insert(...) }` loop of
`merge_existing_toml`. -/
def insertEnvVars (env_table : List (String × Toml))
    (env_vars : List (String × String)) : List (String × Toml) :=
  env_vars.foldl (fun acc kv => tableInsert acc kv.1 (.str kv.2)) env_table

/-- Writing the mutated `env` section back into the root table (the source
mutates it in place through `as_table_mut`; the key keeps its position). -/
def setEnv (t : List (String × Toml)) (v : Toml) : List (String × Toml) :=
  tableInsert t "env" v

/-! ## The pretty-printer (`toml::to_string_pretty`)

Modelled from the spec: the serializer is the external `toml` crate's pretty
printer.  On the modelled fragment it emits the root's string scalars as
`key = "value"` lines, then each section as a `[name]` header followed by one
`key = "value"` line per entry, with one blank line between blocks and a
trailing newline — exactly the emission shape the spec's marker arithmetic
assumes ("the blank line the pretty-printer emits after the section"). -/

/-- Escaping of `"` and `\` inside a TOML basic string. -/
def escapeChars : List Char → List Char
  | [] => []
  | c :: rest =>
    if c = '"' then '\\' :: '"' :: escapeChars rest
    else if c = '\\' then '\\' :: '\\' :: escapeChars rest
    else c :: escapeChars rest

/-- One serialized `key = value` line.  A table value inside a section is
outside the modelled fragment (the real printer would emit a nested section)
and is rendered as a placeholder. -/
def entryLine (k : String) : Toml → List Char
  | .str s => k.data ++ (" = ").data ++ ('"' :: (escapeChars s.data ++ ['"']))
  | .table _ => k.data ++ (" = <nested table outside the modelled fragment>").data

/-- The root's scalar lines, in key order. -/
def scalarLines (t : List (String × Toml)) : List (List Char) :=
  t.filterMap (fun kv =>
    match kv.2 with
    | .str _ => some (entryLine kv.1 kv.2)
    | .table _ => none)

/-- Each section of the root as a block of lines: header, then entries. -/
def sectionBlocks (t : List (String × Toml)) : List (List (List Char)) :=
  t.filterMap (fun kv =>
    match kv.2 with
    | .str _ => none
    | .table es => some (('[' :: (kv.1.data ++ [']'])) :: es.map (fun e => entryLine e.1 e.2)))

/-- Concatenate line blocks with one blank separator line between them. -/
def joinBlocks : List (List (List Char)) → List (List Char)
  | [] => []
  | [b] => b
  | b :: bs => b ++ [[]] ++ joinBlocks bs

/-- All lines of the pretty-printed document, in order. -/
def prettyLines (t : List (String × Toml)) : List (List Char) :=
  let s := scalarLines t
  let bs := joinBlocks (sectionBlocks t)
  s ++ (if s.isEmpty || bs.isEmpty then [] else [[]]) ++ bs

/-- Model of `toml::to_string_pretty`: the joined lines with a trailing newline (the
empty document serializes to the empty string). -/
def to_string_pretty (t : List (String × Toml)) : String :=
  match prettyLines t with
  | [] => ""
  | ls => String.mk (joinNl ls ++ ['\n'])

/-! ## Marker insertion (`Args::add_prefix`, lines 170–188) -/

/-- The `END` marker constant (line 15 of the source). -/
def END : String := "\n# GENERATED BY ENV_TO_CONFIG_TOML END\n"

/-- The `START` marker constant (line 16 of the source). -/
def START : String := "# GENERATED BY ENV_TO_CONFIG_TOML START\n"

/-- The `env_section_index` computation: iterate over the root table's keys
and count the keys before `"env"` (the full key count when `env` is absent,
as the loop then never breaks). -/
def env_section_index (t : List (String × Toml)) : Nat :=
  List.findIdx (fun kv => kv.1 == "env") t

/-- Model of the marker-insertion helper of the source: serialize, split into lines, insert the `START`
element at the key-count index and the `END` element `len + 2` positions
later, and re-join with `"\n"`. -/
def add_prefix (value : List (String × Toml)) (len : Nat) : String :=
  let idx := env_section_index value
  let lines := rustLinesChars (to_string_pretty value).data
  let lines2 := vecInsert lines idx START.data
  let lines3 := vecInsert lines2 (idx + len + 2) END.data
  String.mk (joinNl lines3)

/-! ## The TOML parser (`toml::from_str`)

Modelled from the spec: the external parser, restricted to the fragment of
TOML the merge core's own output and the claims exercise — comment and blank
lines, `[name]` section headers with bare-key names, and `key = "basic
string"` lines.  Anything else is a parse error; an empty document parses to
the empty root mapping. -/

/-- Scan a basic string after its opening quote: unescape `\"` and `\\`,
stop at the closing quote, returning the content and the characters after
the closing quote. -/
def parseBasicString : List Char → Option (List Char × List Char)
  | [] => none
  | c :: rest =>
    if c = '"' then some ([], rest)
    else if c = '\\' then
      match rest with
      | [] => none
      | e :: rest' =>
        if e = '"' ∨ e = '\\' then
          match parseBasicString rest' with
          | some (s, r) => some (e :: s, r)
          | none => none
        else none
    else if c = '\n' then none
    else
      match parseBasicString rest with
      | some (s, r) => some (c :: s, r)
      | none => none

/-- Split a line at its first `=`. -/
def splitFirstEq : List Char → Option (List Char × List Char)
  | [] => none
  | c :: rest =>
    if c = '=' then some ([], rest)
    else
      match splitFirstEq rest with
      | some (a, b) => some (c :: a, b)
      | none => none

/-- Split a header's remainder at its first `]`. -/
def splitFirstClose : List Char → Option (List Char × List Char)
  | [] => none
  | c :: rest =>
    if c = ']' then some ([], rest)
    else
      match splitFirstClose rest with
      | some (a, b) => some (c :: a, b)
      | none => none

/-- A TOML bare-key character: ASCII alphanumeric, `_` or `-`. -/
def isBareKeyChar (c : Char) : Bool := c.isAlphanum || c = '_' || c = '-'

/-- A TOML bare key: non-empty and made of bare-key characters. -/
def isBareKey (l : List Char) : Bool := !l.isEmpty && l.all isBareKeyChar

/-- After a value or header, only trailing whitespace or a comment may follow. -/
def restOk (rest : List Char) : Bool :=
  let r := rest.dropWhile isWs
  r.isEmpty || r.head? == some '#'

/-- A quoted basic-string value token. -/
def parseQuoted (l : List Char) : Option (List Char) :=
  match l with
  | '"' :: rest =>
    match parseBasicString rest with
    | some (content, after) => if restOk after then some content else none
    | none => none
  | _ => none

/-- The classification of one line of a TOML document. -/
inductive ParsedLine where
  | blank : ParsedLine
  | header : List Char → ParsedLine
  | kv : List Char → List Char → ParsedLine

/-- Classify one line: blank/comment, `[name]` header, or `key = "value"`. -/
def classifyLine (l : List Char) : Option ParsedLine :=
  match trimChars l with
  | [] => some .blank
  | c :: rest =>
    if c = '#' then some .blank
    else if c = '[' then
      match splitFirstClose rest with
      | some (name, after) =>
        if isBareKey name && restOk after then some (.header name) else none
      | none => none
    else
      match splitFirstEq (c :: rest) with
      | some (kpart, vpart) =>
        if isBareKey (trimChars kpart) then
          match parseQuoted (trimChars vpart) with
          | some v => some (.kv (trimChars kpart) v)
          | none => none
        else none
      | none => none

/-- Close the section currently being read, appending it to the root; a
section name colliding with an existing root key is a parse error. -/
def flushSection (root : List (String × Toml)) :
    Option (String × List (String × Toml)) → Option (List (String × Toml))
  | none => some root
  | some (n, es) =>
    if tableContains root n then none else some (root ++ [(n, .table es)])

/-- Assemble a document from its classified lines: key/value lines before the
first header are root scalars, later ones belong to the most recent section;
duplicate keys are parse errors. -/
def buildDoc : List (List Char) → List (String × Toml) →
    Option (String × List (String × Toml)) → Option (List (String × Toml))
  | [], root, cur => flushSection root cur
  | l :: rest, root, cur =>
    match classifyLine l with
    | none => none
    | some .blank => buildDoc rest root cur
    | some (.header nm) =>
      match flushSection root cur with
      | some root' => buildDoc rest root' (some (String.mk nm, []))
      | none => none
    | some (.kv k v) =>
      match cur with
      | none =>
        if tableContains root (String.mk k) then none
        else buildDoc rest (root ++ [(String.mk k, .str (String.mk v))]) none
      | some (n, es) =>
        if tableContains es (String.mk k) then none
        else buildDoc rest root (some (n, es ++ [(String.mk k, .str (String.mk v))]))

/-- Model of `toml::from_str::<toml::Value>` on a document: the root is always a
table, so the source's first `as_table_mut().unwrap()` cannot fail. -/
def toml_from_str (s : String) : Except String (List (String × Toml)) :=
  match buildDoc (splitNl s.data) [] none with
  | some root => .ok root
  | none => .error "TOML parse error"

/-! ## The merge (`Args::merge_existing_toml`, lines 136–168) -/

/-- The observable outcome of one `merge_existing_toml` call: a byte
sequence (here a string), a propagated parse error, or a panic from the
`unwrap` on line 150 when the existing `env` key holds a non-table value. -/
inductive MergeOutcome where
  | ok : String → MergeOutcome
  | parseError : MergeOutcome
  | panicked : MergeOutcome
deriving DecidableEq

/-- Model of `Args::merge_existing_toml`.  (`tableGet (ensureEnv config) "env"` is the
value returned by the `entry(..).or_insert_with(..)` chain: it is never
`none`, and when it is not a table the source's `.as_table_mut().unwrap()`
panics.) -/
def merge_existing_toml (env_vars : List (String × String))
    (file_content : String) : MergeOutcome :=
  match toml_from_str file_content with
  | .error _ => .parseError
  | .ok config =>
    match tableGet (ensureEnv config) "env" with
    | some (.table env_table) =>
      let env_table' := insertEnvVars env_table env_vars
      let config' := setEnv (ensureEnv config) (.table env_table')
      .ok ( add_prefix config' env_table'.length)
    | _ => .panicked

/-! ## Basic lemmas -/

theorem String.mk_data (s : String) : String.mk s.data = s := by
  cases s
  rfl

theorem startsWithHash (l : List Char) :
    List.isPrefixOf "#".data l = (l.head? == some '#') := by
  cases l with
  | nil => rfl
  | cons c cs =>
    show List.isPrefixOf ['#'] (c :: cs) = _
    by_cases h : c = '#'
    · subst h
      simp [List.isPrefixOf]
    · simp [List.isPrefixOf, h, Ne.symm h]

/-! ## C3: value flattening -/

/-- The flattening as the spec's sentence words it: drop the lines whose
first non-whitespace character is `#`. -/
def flattenValueSpecWords (value : String) : String :=
  String.mk (joinWith "||||".data
    ((rustLinesChars (trimChars value.data)).filter
      (fun l => !((l.dropWhile isWs).head? == some '#'))))

/-- The amended description: drop the lines whose first character is `#`
(no leading whitespace is skipped before the test). -/
def flattenValueFirstChar (value : String) : String :=
  String.mk (joinWith "||||".data
    ((rustLinesChars (trimChars value.data)).filter
      (fun l => !(l.head? == some '#'))))

/-- C3 counterexample: the collected value of the raw value `"x\n  # c\ny"`
keeps the indented comment line, while the spec's trim-first rule would drop
it — the code tests `starts_with("#")` on the untrimmed line. -/
theorem c3_counterexample :
    flattenValue "x\n  # c\ny" = "x||||  # c||||y" ∧
    flattenValueSpecWords "x\n  # c\ny" = "x||||y" ∧
    ("x||||  # c||||y" : String) ≠ "x||||y" := by
  refine ⟨rfl, rfl, by decide⟩

/-- C3 (amended): for every raw value, the collected value equals trimming,
splitting into lines, dropping every line whose first character is `#`
(without skipping leading whitespace), and joining with `"||||"`; in
particular `"x\n# comment\ny"` collects to `"x||||y"`. -/
theorem c3_flatten_amended :
    (∀ v : String, flattenValue v = flattenValueFirstChar v) ∧
    flattenValue "x\n# comment\ny" = "x||||y" := by
  constructor
  · intro v
    unfold flattenValue flattenValueFirstChar
    have : ((rustLinesChars (trimChars v.data)).filter
        (fun l => !(List.isPrefixOf "#".data l))) =
        ((rustLinesChars (trimChars v.data)).filter
        (fun l => !(l.head? == some '#'))) := by
      apply List.filter_congr
      intro a _
      rw [startsWithHash]
    rw [this]
  · rfl

/-! ## C9: parse behaviour of the merge -/

/-- C9: the empty existing text parses to the empty root mapping (never an
error), and whenever the existing text fails to parse the merge returns a
parse error (no output bytes are produced). -/
theorem c9_parse_empty_and_errors :
    toml_from_str "" = .ok [] ∧
    ∀ (env_vars : List (String × String)) (s : String) (e : String),
      toml_from_str s = .error e →
      merge_existing_toml env_vars s = .parseError := by
  constructor
  · rfl
  · intro env_vars s e h
    simp [merge_existing_toml, h]

/-- C9 witness: `"["` is malformed, and merging into it fails with the parse
error outcome. -/
theorem c9_witness :
    toml_from_str "[" = .error "TOML parse error" ∧
    merge_existing_toml [("A", "1")] "[" = .parseError :=
  ⟨rfl, c9_parse_empty_and_errors.2 [("A", "1")] "[" "TOML parse error" rfl⟩

/-! ## C10: panic on a non-table `env` value -/

/-- C10: a well-formed existing document binding the top-level key `env` to a
string parses successfully, and merging into it neither succeeds nor returns
an error value: the `.as_table_mut().unwrap()` on the `env` entry panics. -/
theorem c10_env_scalar_panics :
    toml_from_str "env = \"x\"" = .ok [("env", .str "x")] ∧
    merge_existing_toml [("A", "1")] "env = \"x\"" = .panicked :=
  ⟨rfl, rfl⟩

/-! ## C4 and C6 counterexamples -/

/-- C4 counterexample: keys `"A"` (from `1.env`) and `"a"` (from `2.env`)
are collected in that insertion order, but the final vector is read out of a
`HashMap`; with the iteration order that happens to reverse insertion order
the stable sort keeps the case-insensitively-equal keys in the reversed
order, so the tie order is not the original case-sensitive key order. -/
theorem c4_counterexample :
    collectFiles (sortFiles [⟨"1.env", [("A", "1")]⟩, ⟨"2.env", [("a", "2")]⟩]) [] =
      .ok [("A", "1", "1.env"), ("a", "2", "2.env")] ∧
    (List.reverse [("A", "1"), ("a", "2")]).Perm [("A", "1"), ("a", "2")] ∧
    get_env_vars "p" [⟨"1.env", [("A", "1")]⟩, ⟨"2.env", [("a", "2")]⟩] List.reverse =
      .ok [("a", "2"), ("A", "1")] ∧
    ([("a", "2"), ("A", "1")] : List (String × String)) ≠ [("A", "1"), ("a", "2")] := by
  refine ⟨rfl, by decide, rfl, by decide⟩

/-- C6 counterexample: merging into `"[a]\nx = \"1\""` succeeds, but the start
marker line (line index 1 of the output) is followed by a blank line, not by
the `[env]` header (which sits at line index 8): the insertion index is the
root-key count, not the header's line index. -/
theorem c6_counterexample :
    merge_existing_toml [("B", "2")] "[a]\nx = \"1\"" =
      .ok "[a]\n# GENERATED BY ENV_TO_CONFIG_TOML START\n\nx = \"1\"\n\n\n# GENERATED BY ENV_TO_CONFIG_TOML END\n\n[env]\nB = \"2\"" ∧
    (splitNl "[a]\n# GENERATED BY ENV_TO_CONFIG_TOML START\n\nx = \"1\"\n\n\n# GENERATED BY ENV_TO_CONFIG_TOML END\n\n[env]\nB = \"2\"".data)[1]? =
      some "# GENERATED BY ENV_TO_CONFIG_TOML START".data ∧
    (splitNl "[a]\n# GENERATED BY ENV_TO_CONFIG_TOML START\n\nx = \"1\"\n\n\n# GENERATED BY ENV_TO_CONFIG_TOML END\n\n[env]\nB = \"2\"".data)[2]? =
      some ([] : List Char) ∧
    (splitNl "[a]\n# GENERATED BY ENV_TO_CONFIG_TOML START\n\nx = \"1\"\n\n\n# GENERATED BY ENV_TO_CONFIG_TOML END\n\n[env]\nB = \"2\"".data)[8]? =
      some "[env]".data := by
  refine ⟨rfl, rfl, rfl, rfl⟩

/-! ## Table lemmas (for C1, C5, C6, C7) -/

theorem tableGet_nil (k : String) : tableGet [] k = none := rfl

theorem tableGet_cons (k0 : String) (v0 : Toml) (rest : List (String × Toml))
    (k : String) :
    tableGet ((k0, v0) :: rest) k = if k0 = k then some v0 else tableGet rest k := by
  by_cases h : k0 = k
  · simp [tableGet, List.find?_cons_of_pos, h]
  · simp [tableGet, List.find?_cons_of_neg, h]

theorem tableInsert_cons (k0 : String) (v0 : Toml) (rest : List (String × Toml))
    (k : String) (v : Toml) :
    tableInsert ((k0, v0) :: rest) k v =
      if k0 = k then (k0, v) :: rest else (k0, v0) :: tableInsert rest k v := by
  by_cases h : k0 = k <;> simp [tableInsert, h]

theorem tableGet_insert_self (t : List (String × Toml)) (k : String) (v : Toml) :
    tableGet (tableInsert t k v) k = some v := by
  induction t with
  | nil => simp [tableInsert, tableGet_cons]
  | cons kv rest ih =>
    obtain ⟨k', v'⟩ := kv
    by_cases h : k' = k
    · simp [tableInsert_cons, tableGet_cons, h]
    · simp [tableInsert_cons, tableGet_cons, h, ih]

theorem tableGet_insert_other (t : List (String × Toml)) (k k' : String) (v : Toml)
    (h : k' ≠ k) : tableGet (tableInsert t k v) k' = tableGet t k' := by
  induction t with
  | nil => simp [tableInsert, tableGet_cons, tableGet_nil, Ne.symm h]
  | cons kv rest ih =>
    obtain ⟨k0, v0⟩ := kv
    by_cases h0 : k0 = k
    · subst h0
      simp [tableInsert_cons, tableGet_cons, Ne.symm h]
    · by_cases h1 : k0 = k'
      · subst h1
        simp [tableInsert_cons, tableGet_cons, h]
      · simp [tableInsert_cons, tableGet_cons, h0, h1, ih]

theorem mem_tableInsert_of_ne (t : List (String × Toml)) (k : String) (v : Toml)
    (kv : String × Toml) (hmem : kv ∈ t) (hne : kv.1 ≠ k) :
    kv ∈ tableInsert t k v := by
  induction t with
  | nil => cases hmem
  | cons kv0 rest ih =>
    obtain ⟨k0, v0⟩ := kv0
    by_cases h0 : k0 = k
    · subst h0
      simp only [tableInsert, beq_self_eq_true, if_pos]
      rcases List.mem_cons.mp hmem with h | h
      · exact absurd (congrArg Prod.fst h) hne
      · exact List.mem_cons_of_mem _ h
    · simp only [tableInsert, beq_iff_eq, if_neg h0]
      rcases List.mem_cons.mp hmem with h | h
      · exact h ▸ List.mem_cons_self _ _
      · exact List.mem_cons_of_mem _ (ih h)

theorem tableContains_iff (t : List (String × Toml)) (k : String) :
    tableContains t k = true ↔ k ∈ t.map Prod.fst := by
  induction t with
  | nil => simp [tableContains, tableGet_nil]
  | cons kv rest ih =>
    obtain ⟨k0, v0⟩ := kv
    by_cases h : k0 = k
    · simp [tableContains, tableGet_cons, h]
    · have hstep : tableContains ((k0, v0) :: rest) k = tableContains rest k := by
        simp [tableContains, tableGet_cons, h]
      rw [hstep, ih]
      simp [Ne.symm h]

theorem tableContains_eq_false (t : List (String × Toml)) (k : String) :
    tableContains t k = false ↔ k ∉ t.map Prod.fst := by
  rw [← tableContains_iff]
  cases tableContains t k <;> simp

theorem tableInsert_of_not_contains (t : List (String × Toml)) (k : String) (v : Toml)
    (h : tableContains t k = false) : tableInsert t k v = t ++ [(k, v)] := by
  induction t with
  | nil => rfl
  | cons kv rest ih =>
    obtain ⟨k0, v0⟩ := kv
    have hk0 : k0 ≠ k := by
      intro e
      subst e
      have := (tableContains_eq_false _ _).mp h
      simp at this
    have hrest : tableContains rest k = false := by
      rw [tableContains_eq_false] at h ⊢
      intro hmem
      exact h (List.mem_cons_of_mem _ hmem)
    simp only [tableInsert, beq_iff_eq, if_neg hk0, ih hrest, List.cons_append]

theorem tableInsert_self_eq (t : List (String × Toml)) (k : String) (v : Toml)
    (h : tableGet t k = some v) : tableInsert t k v = t := by
  induction t with
  | nil => simp [tableGet_nil] at h
  | cons kv rest ih =>
    obtain ⟨k0, v0⟩ := kv
    by_cases h0 : k0 = k
    · subst h0
      rw [tableGet_cons, if_pos rfl] at h
      injection h with h
      simp [tableInsert_cons, h]
    · rw [tableGet_cons, if_neg h0] at h
      simp [tableInsert_cons, h0, ih h]

theorem keys_tableInsert (t : List (String × Toml)) (k : String) (v : Toml) :
    (tableInsert t k v).map Prod.fst =
      if tableContains t k then t.map Prod.fst else t.map Prod.fst ++ [k] := by
  by_cases h : tableContains t k
  · rw [if_pos h]
    induction t with
    | nil => simp [tableContains, tableGet_nil] at h
    | cons kv rest ih =>
      obtain ⟨k0, v0⟩ := kv
      by_cases h0 : k0 = k
      · simp [tableInsert_cons, h0]
      · have hrest : tableContains rest k = true := by
          have hmem := (tableContains_iff _ k).mp h
          rw [List.map_cons] at hmem
          rcases List.mem_cons.mp hmem with e | e
          · exact absurd e.symm h0
          · exact (tableContains_iff _ k).mpr e
        simp [tableInsert_cons, h0, ih hrest]
  · rw [if_neg h, tableInsert_of_not_contains t k v (by simpa using h)]
    simp

/-! ## C7: overwrite-in-place with retention -/

theorem insertEnvVars_get_untouched (E : List (String × String))
    (t : List (String × Toml)) (k : String) (h : k ∉ E.map Prod.fst) :
    tableGet (insertEnvVars t E) k = tableGet t k := by
  induction E generalizing t with
  | nil => rfl
  | cons kv rest ih =>
    obtain ⟨k0, v0⟩ := kv
    have hk0 : k ≠ k0 := by
      intro e
      exact h (e ▸ List.mem_cons_self _ _)
    have hrest : k ∉ rest.map Prod.fst := fun hm => h (List.mem_cons_of_mem _ hm)
    show tableGet (insertEnvVars (tableInsert t k0 (.str v0)) rest) k = _
    rw [ih _ hrest, tableGet_insert_other _ _ _ _ hk0]

theorem insertEnvVars_get_supplied (E : List (String × String))
    (t : List (String × Toml)) (K new : String)
    (hnodup : (E.map Prod.fst).Nodup) (hmem : (K, new) ∈ E) :
    tableGet (insertEnvVars t E) K = some (.str new) := by
  induction E generalizing t with
  | nil => cases hmem
  | cons kv rest ih =>
    obtain ⟨k0, v0⟩ := kv
    rw [List.map_cons, List.nodup_cons] at hnodup
    rcases List.mem_cons.mp hmem with h | h
    · injection h with e1 e2
      subst e1; subst e2
      show tableGet (insertEnvVars (tableInsert t K (.str new)) rest) K = _
      rw [insertEnvVars_get_untouched rest _ K hnodup.1, tableGet_insert_self]
    · exact ih _ hnodup.2 h

theorem mem_insertEnvVars_of_not_supplied (E : List (String × String))
    (t : List (String × Toml)) (kv : String × Toml)
    (hmem : kv ∈ t) (h : kv.1 ∉ E.map Prod.fst) :
    kv ∈ insertEnvVars t E := by
  induction E generalizing t with
  | nil => exact hmem
  | cons e rest ih =>
    obtain ⟨k0, v0⟩ := e
    have hk0 : kv.1 ≠ k0 := by
      intro hEq
      exact h (hEq ▸ List.mem_cons_self _ _)
    have hrest : kv.1 ∉ rest.map Prod.fst := fun hm => h (List.mem_cons_of_mem _ hm)
    exact ih _ (mem_tableInsert_of_ne t k0 (.str v0) kv hmem hk0) hrest

theorem keys_insertEnvVars_nodup (E : List (String × String))
    (t : List (String × Toml)) (h : (t.map Prod.fst).Nodup) :
    ((insertEnvVars t E).map Prod.fst).Nodup := by
  induction E generalizing t with
  | nil => exact h
  | cons e rest ih =>
    obtain ⟨k0, v0⟩ := e
    apply ih
    rw [keys_tableInsert]
    by_cases hc : tableContains t k0
    · rwa [if_pos hc]
    · rw [if_neg hc]
      have : k0 ∉ t.map Prod.fst := (tableContains_eq_false t k0).mp (by simpa using hc)
      simp [List.nodup_append, h, this]

theorem filter_of_get_nodup (t : List (String × Toml)) (K : String) (v : Toml)
    (hnodup : (t.map Prod.fst).Nodup) (hget : tableGet t K = some v) :
    t.filter (fun kv => kv.1 == K) = [(K, v)] := by
  induction t with
  | nil => simp [tableGet_nil] at hget
  | cons kv rest ih =>
    obtain ⟨k0, v0⟩ := kv
    rw [List.map_cons, List.nodup_cons] at hnodup
    by_cases h0 : k0 = K
    · subst h0
      rw [tableGet_cons, if_pos rfl] at hget
      injection hget with hget
      have hK : k0 ∉ rest.map Prod.fst := hnodup.1
      have hrest : rest.filter (fun kv => kv.1 == k0) = [] := by
        apply List.filter_eq_nil_iff.mpr
        intro a ha
        simp only [beq_iff_eq]
        intro hEq
        exact hK (hEq ▸ List.mem_map_of_mem Prod.fst ha)
      simp [List.filter_cons, hrest, ← hget]
    · rw [tableGet_cons, if_neg h0] at hget
      have := ih hnodup.2 hget
      simp [List.filter_cons, h0, this]

/-- C7: if the existing `env` section binds `K` to some old value and the
supplied entries (with distinct keys) bind `K` to `new`, then after the
insertion loop `K` appears exactly once, with the new value, and every
pre-existing section key not re-supplied keeps its old binding. -/
theorem c7_overwrite_retain (et : List (String × Toml)) (E : List (String × String))
    (K new : String) (old : Toml)
    (hnodupT : (et.map Prod.fst).Nodup)
    (hnodupE : (E.map Prod.fst).Nodup)
    (hold : tableGet et K = some old)
    (hKE : (K, new) ∈ E) :
    (insertEnvVars et E).filter (fun kv => kv.1 == K) = [(K, .str new)] ∧
    ∀ kv ∈ et, kv.1 ∉ E.map Prod.fst → kv ∈ insertEnvVars et E := by
  constructor
  · exact filter_of_get_nodup _ _ _ (keys_insertEnvVars_nodup E et hnodupT)
      (insertEnvVars_get_supplied E et K new hnodupE hKE)
  · intro kv hmem hns
    exact mem_insertEnvVars_of_not_supplied E et kv hmem hns

/-- C7 witness: a section `K = "old", other = "o"` merged with entries
`K = "new"`. -/
theorem c7_witness :
    ([("K", Toml.str "old"), ("other", Toml.str "o")].map Prod.fst).Nodup ∧
    ([("K", "new")].map Prod.fst).Nodup ∧
    tableGet [("K", Toml.str "old"), ("other", Toml.str "o")] "K" = some (.str "old") ∧
    ("K", "new") ∈ [("K", "new")] ∧
    ((insertEnvVars [("K", Toml.str "old"), ("other", Toml.str "o")] [("K", "new")]).filter
        (fun kv => kv.1 == "K") = [("K", .str "new")] ∧
      ∀ kv ∈ [("K", Toml.str "old"), ("other", Toml.str "o")],
        kv.1 ∉ [("K", "new")].map Prod.fst →
        kv ∈ insertEnvVars [("K", Toml.str "old"), ("other", Toml.str "o")] [("K", "new")]) := by
  refine ⟨by decide, by decide, rfl, by decide, ?_⟩
  exact c7_overwrite_retain _ _ "K" "new" (.str "old") (by decide) (by decide) rfl (by decide)

/-! ## C5: preservation of unrelated sections, section appended at the end -/

theorem tableGet_append_self (t : List (String × Toml)) (k : String) (v : Toml)
    (h : tableContains t k = false) : tableGet (t ++ [(k, v)]) k = some v := by
  have h' := (tableContains_eq_false t k).mp h
  induction t with
  | nil => simp [tableGet_cons]
  | cons kv rest ih =>
    obtain ⟨k0, v0⟩ := kv
    rw [List.map_cons, List.mem_cons] at h'
    push_neg at h'
    rw [List.cons_append, tableGet_cons, if_neg (fun e => h'.1 e.symm)]
    exact ih (by rw [tableContains_eq_false]; exact h'.2) h'.2

theorem tableInsert_append_self (t : List (String × Toml)) (k : String) (w v : Toml)
    (h : tableContains t k = false) :
    tableInsert (t ++ [(k, w)]) k v = t ++ [(k, v)] := by
  have h' := (tableContains_eq_false t k).mp h
  induction t with
  | nil => simp [tableInsert_cons]
  | cons kv rest ih =>
    obtain ⟨k0, v0⟩ := kv
    rw [List.map_cons, List.mem_cons] at h'
    push_neg at h'
    rw [List.cons_append, tableInsert_cons, if_neg (fun e => h'.1 e.symm),
      List.cons_append]
    rw [ih (by rw [tableContains_eq_false]; exact h'.2) h'.2]

/-- C5: merging entries `E` into an existing document whose root has no
`env` key yields the document whose root mapping is the old root, entirely
unchanged and in its old order, with the new `env` section appended after
all pre-existing top-level keys (and the merge output serializes exactly
that root). -/
theorem c5_preserves_sections (s : String) (root : List (String × Toml))
    (E : List (String × String))
    (hparse : toml_from_str s = .ok root)
    (henv : tableContains root "env" = false) :
    setEnv (ensureEnv root) (.table (insertEnvVars [] E)) =
      root ++ [("env", .table (insertEnvVars [] E))] ∧
    merge_existing_toml E s =
      .ok ( add_prefix (root ++ [("env", .table (insertEnvVars [] E))])
        (insertEnvVars [] E).length) := by
  have hens : ensureEnv root = root ++ [("env", Toml.table [])] := by
    simp [ensureEnv, henv]
  have hget : tableGet (ensureEnv root) "env" = some (.table []) := by
    rw [hens]
    exact tableGet_append_self root "env" _ henv
  have hset : setEnv (ensureEnv root) (.table (insertEnvVars [] E)) =
      root ++ [("env", .table (insertEnvVars [] E))] := by
    show tableInsert (ensureEnv root) "env" _ = _
    rw [hens]
    exact tableInsert_append_self root "env" _ _ henv
  refine ⟨hset, ?_⟩
  simp only [merge_existing_toml, hparse, hget]
  rw [hset]

/-- C5 witness: a document with sections `a` and `b`, merged with one entry. -/
theorem c5_witness :
    toml_from_str "[a]\nx = \"1\"\n\n[b]\ny = \"2\"" =
      .ok [("a", .table [("x", .str "1")]), ("b", .table [("y", .str "2")])] ∧
    tableContains [("a", Toml.table [("x", .str "1")]), ("b", Toml.table [("y", .str "2")])] "env" = false ∧
    (setEnv (ensureEnv [("a", Toml.table [("x", .str "1")]), ("b", Toml.table [("y", .str "2")])])
        (.table (insertEnvVars [] [("K", "v")])) =
      [("a", Toml.table [("x", .str "1")]), ("b", Toml.table [("y", .str "2")])] ++
        [("env", .table (insertEnvVars [] [("K", "v")]))] ∧
    merge_existing_toml [("K", "v")] "[a]\nx = \"1\"\n\n[b]\ny = \"2\"" =
      .ok ( add_prefix ([("a", Toml.table [("x", .str "1")]), ("b", Toml.table [("y", .str "2")])] ++
        [("env", .table (insertEnvVars [] [("K", "v")]))]) (insertEnvVars [] [("K", "v")]).length)) :=
  ⟨rfl, rfl, c5_preserves_sections _ _ [("K", "v")] rfl rfl⟩

/-! ## C2: duplicate-key detection -/

/-- The keys held by the collector's state, in insertion order. -/
def seenKeys (s : Seen) : List String := s.map (fun x => x.1)

/-- The state contribution of one fully processed file. -/
def seenOfFile (f : EnvFile) : Seen :=
  f.entries.map (fun kv => (kv.1, flattenValue kv.2, f.path))

/-- The state after processing a list of files without a collision. -/
def seenOfFiles (files : List EnvFile) : Seen := (files.map seenOfFile).flatten

/-- Every key defined by a list of files, in processing order. -/
def allKeys (files : List EnvFile) : List String := (files.map keysOfFile).flatten

theorem containsKey_iff (s : Seen) (k : String) :
    containsKey s k = true ↔ k ∈ seenKeys s := by
  unfold containsKey seenKeys
  rw [List.any_eq_true]
  constructor
  · rintro ⟨x, hx, he⟩
    rw [beq_iff_eq] at he
    exact he ▸ List.mem_map_of_mem _ hx
  · intro h
    obtain ⟨x, hx, he⟩ := List.mem_map.mp h
    exact ⟨x, hx, by simp [he]⟩

theorem containsKey_eq_false (s : Seen) (k : String) :
    containsKey s k = false ↔ k ∉ seenKeys s := by
  rw [← containsKey_iff]
  cases containsKey s k <;> simp

theorem containsKey_append (s t : Seen) (k : String) :
    containsKey (s ++ t) k = (containsKey s k || containsKey t k) := by
  simp [containsKey, List.any_append]

theorem pathOfKey_append_left (s t : Seen) (k : String)
    (h : containsKey s k = true) : pathOfKey (s ++ t) k = pathOfKey s k := by
  have hs : ∃ x, s.find? (fun x => x.1 == k) = some x := by
    rw [← Option.isSome_iff_exists, List.find?_isSome]
    simpa [containsKey, List.any_eq_true] using h
  obtain ⟨x, hx⟩ := hs
  unfold pathOfKey
  rw [List.find?_append, hx]
  rfl

theorem pathOfKey_append_right (s t : Seen) (k : String)
    (h : containsKey s k = false) : pathOfKey (s ++ t) k = pathOfKey t k := by
  have hs : s.find? (fun x => x.1 == k) = none := by
    rw [List.find?_eq_none]
    intro x hx
    rw [containsKey_eq_false] at h
    simp only [beq_iff_eq]
    intro he
    exact h (he ▸ List.mem_map_of_mem _ hx)
  unfold pathOfKey
  rw [List.find?_append, hs]
  rfl

theorem seenKeys_append (s t : Seen) : seenKeys (s ++ t) = seenKeys s ++ seenKeys t := by
  simp [seenKeys]

theorem seenKeys_seenOfFile (f : EnvFile) : seenKeys (seenOfFile f) = keysOfFile f := by
  simp [seenKeys, seenOfFile, keysOfFile, List.map_map]

theorem seenOfFiles_cons (f : EnvFile) (fs : List EnvFile) :
    seenOfFiles (f :: fs) = seenOfFile f ++ seenOfFiles fs := by
  simp [seenOfFiles]

theorem allKeys_cons (f : EnvFile) (fs : List EnvFile) :
    allKeys (f :: fs) = keysOfFile f ++ allKeys fs := by
  simp [allKeys]

theorem pathOfKey_mapped (es : List (String × String)) (p k : String)
    (h : k ∈ es.map Prod.fst) :
    pathOfKey (es.map (fun kv => (kv.1, flattenValue kv.2, p))) k = p := by
  induction es with
  | nil => cases h
  | cons kv rest ih =>
    obtain ⟨k0, v0⟩ := kv
    by_cases h0 : k0 = k
    · unfold pathOfKey
      rw [List.map_cons, List.find?_cons_of_pos _ (by simp [h0])]
    · unfold pathOfKey
      rw [List.map_cons, List.find?_cons_of_neg _ (by simp [h0])]
      have hrest : k ∈ rest.map Prod.fst := by
        rw [List.map_cons] at h
        rcases List.mem_cons.mp h with e | e
        · exact absurd e.symm h0
        · exact e
      exact ih hrest

theorem containsKey_seenOfFile (f : EnvFile) (k : String) :
    containsKey (seenOfFile f) k = true ↔ k ∈ keysOfFile f := by
  rw [containsKey_iff, seenKeys_seenOfFile]

theorem processFile_ok (p : String) (es : List (String × String)) (s : Seen)
    (hnodup : (es.map Prod.fst).Nodup)
    (hdisj : ∀ k ∈ es.map Prod.fst, containsKey s k = false) :
    processFile p es s = .ok (s ++ es.map (fun kv => (kv.1, flattenValue kv.2, p))) := by
  induction es generalizing s with
  | nil => simp [processFile]
  | cons kv rest ih =>
    obtain ⟨k, v⟩ := kv
    rw [List.map_cons, List.nodup_cons] at hnodup
    have hk : containsKey s k = false := hdisj k (by simp)
    have step : processFile p ((k, v) :: rest) s =
        processFile p rest (s ++ [(k, flattenValue v, p)]) := by
      simp [processFile, hk]
    rw [step, ih _ hnodup.2 ?_]
    · simp
    · intro k' hk'
      rw [containsKey_append, hdisj k' (by simp [hk'])]
      have hne : k ≠ k' := fun e => hnodup.1 (e ▸ hk')
      simp [containsKey, hne]

theorem processFile_error (p : String) (es : List (String × String)) (s : Seen)
    (hnodup : (es.map Prod.fst).Nodup)
    (hex : ∃ k ∈ es.map Prod.fst, containsKey s k = true) :
    ∃ k, k ∈ es.map Prod.fst ∧ containsKey s k = true ∧
      processFile p es s = .error (.DuplicateKey k p (pathOfKey s k)) := by
  induction es generalizing s with
  | nil => simp at hex
  | cons kv rest ih =>
    obtain ⟨k, v⟩ := kv
    rw [List.map_cons, List.nodup_cons] at hnodup
    by_cases hk : containsKey s k = true
    · exact ⟨k, by simp, hk, by simp [processFile, hk]⟩
    · have hkf : containsKey s k = false := by
        cases h : containsKey s k
        · rfl
        · exact absurd h hk
      have step : processFile p ((k, v) :: rest) s =
          processFile p rest (s ++ [(k, flattenValue v, p)]) := by
        simp [processFile, hkf]
      have hex' : ∃ k' ∈ rest.map Prod.fst,
          containsKey (s ++ [(k, flattenValue v, p)]) k' = true := by
        obtain ⟨k', hmem, hck⟩ := hex
        rw [List.map_cons] at hmem
        rcases List.mem_cons.mp hmem with e | e
        · rw [e] at hck
          exact absurd hck hk
        · exact ⟨k', e, by rw [containsKey_append, hck]; rfl⟩
      obtain ⟨k0, hk0mem, hk0, herr⟩ := ih _ hnodup.2 hex'
      have hne : k ≠ k0 := fun e => hnodup.1 (e ▸ hk0mem)
      have hk0s : containsKey s k0 = true := by
        rw [containsKey_append] at hk0
        rcases Bool.or_eq_true_iff.mp hk0 with h | h
        · exact h
        · exact absurd (by simpa [containsKey] using h) hne
      have hpath : pathOfKey (s ++ [(k, flattenValue v, p)]) k0 = pathOfKey s k0 :=
        pathOfKey_append_left _ _ _ hk0s
      refine ⟨k0, by simp [hk0mem], hk0s, ?_⟩
      rw [step, herr, hpath]

theorem collectFiles_ok (files : List EnvFile) (s : Seen)
    (hnodups : ∀ f ∈ files, (keysOfFile f).Nodup)
    (hN : (seenKeys s ++ allKeys files).Nodup) :
    collectFiles files s = .ok (s ++ seenOfFiles files) := by
  induction files generalizing s with
  | nil => simp [collectFiles, seenOfFiles]
  | cons f fs ih =>
    rw [allKeys_cons] at hN
    have hN' : ((seenKeys s ++ keysOfFile f) ++ allKeys fs).Nodup := by
      rwa [List.append_assoc]
    have hparts := List.nodup_append.mp hN
    have hdisjf : ∀ k ∈ keysOfFile f, containsKey s k = false := by
      intro k hk
      rw [containsKey_eq_false]
      intro hks
      exact hparts.2.2 hks (List.mem_append_left _ hk)
    have hpf := processFile_ok f.path f.entries s (hnodups f (by simp)) hdisjf
    have step : collectFiles (f :: fs) s = collectFiles fs (s ++ seenOfFile f) := by
      simp only [collectFiles, hpf]
      rfl
    rw [step, ih _ (fun g hg => hnodups g (by simp [hg])) ?_]
    · rw [seenOfFiles_cons, List.append_assoc]
    · rwa [seenKeys_append, seenKeys_seenOfFile]

theorem collectFiles_error (files : List EnvFile) (s : Seen)
    (hnodups : ∀ f ∈ files, (keysOfFile f).Nodup)
    (hsk : (seenKeys s).Nodup)
    (hbad : ¬ (seenKeys s ++ allKeys files).Nodup) :
    ∃ j, ∃ hj : j < files.length, ∃ k,
      k ∈ keysOfFile (files.get ⟨j, hj⟩) ∧
      (seenKeys s ++ allKeys (files.take j)).Nodup ∧
      containsKey (s ++ seenOfFiles (files.take j)) k = true ∧
      collectFiles files s =
        .error (.DuplicateKey k (files.get ⟨j, hj⟩).path
          (pathOfKey (s ++ seenOfFiles (files.take j)) k)) := by
  induction files generalizing s with
  | nil =>
    exfalso
    apply hbad
    simpa [allKeys] using hsk
  | cons f fs ih =>
    by_cases hcol : ∃ k ∈ keysOfFile f, containsKey s k = true
    · obtain ⟨k0, hmem, hck, herr⟩ :=
        processFile_error f.path f.entries s (hnodups f (by simp)) hcol
      refine ⟨0, Nat.succ_pos _, k0, hmem, ?_, ?_, ?_⟩
      · simpa [allKeys] using hsk
      · simpa [seenOfFiles] using hck
      · have : collectFiles (f :: fs) s =
            .error (.DuplicateKey k0 f.path (pathOfKey s k0)) := by
          simp [collectFiles, herr]
        rw [this]
        simp [seenOfFiles]
    · have hdisjf : ∀ k ∈ keysOfFile f, containsKey s k = false := by
        intro k hk
        cases h : containsKey s k
        · rfl
        · exact absurd ⟨k, hk, h⟩ hcol
      have hpf := processFile_ok f.path f.entries s (hnodups f (by simp)) hdisjf
      have step : collectFiles (f :: fs) s = collectFiles fs (s ++ seenOfFile f) := by
        simp only [collectFiles, hpf]
        rfl
      have hsk' : (seenKeys (s ++ seenOfFile f)).Nodup := by
        rw [seenKeys_append, seenKeys_seenOfFile, List.nodup_append]
        refine ⟨hsk, hnodups f (by simp), ?_⟩
        intro a ha hb
        rw [← containsKey_iff] at ha
        rw [hdisjf a hb] at ha
        cases ha
      have hbad' : ¬ (seenKeys (s ++ seenOfFile f) ++ allKeys fs).Nodup := by
        rw [seenKeys_append, seenKeys_seenOfFile, List.append_assoc, ← allKeys_cons]
        exact hbad
      obtain ⟨j, hj, k, hkmem, hnod, hck, herr⟩ :=
        ih _ (fun g hg => hnodups g (by simp [hg])) hsk' hbad'
      refine ⟨j + 1, Nat.succ_lt_succ hj, k, hkmem, ?_, ?_, ?_⟩
      · rw [List.take_succ_cons, allKeys_cons, ← List.append_assoc,
          ← seenKeys_seenOfFile f, ← seenKeys_append]
        exact hnod
      · rw [List.take_succ_cons, seenOfFiles_cons, ← List.append_assoc]
        exact hck
      · rw [step, herr, List.take_succ_cons, seenOfFiles_cons, ← List.append_assoc]
        rfl

theorem exists_definer (g : List EnvFile) (k : String)
    (h : containsKey (seenOfFiles g) k = true) :
    ∃ i, ∃ hi : i < g.length,
      k ∈ keysOfFile (g.get ⟨i, hi⟩) ∧
      pathOfKey (seenOfFiles g) k = (g.get ⟨i, hi⟩).path := by
  induction g with
  | nil => simp [seenOfFiles, containsKey] at h
  | cons f gs ih =>
    rw [seenOfFiles_cons] at h ⊢
    by_cases hf : k ∈ keysOfFile f
    · refine ⟨0, Nat.succ_pos _, hf, ?_⟩
      rw [pathOfKey_append_left _ _ _ ((containsKey_seenOfFile f k).mpr hf)]
      exact pathOfKey_mapped f.entries f.path k hf
    · have hcf : containsKey (seenOfFile f) k = false := by
        cases hc : containsKey (seenOfFile f) k
        · rfl
        · exact absurd ((containsKey_seenOfFile f k).mp hc) hf
      have hrest : containsKey (seenOfFiles gs) k = true := by
        rw [containsKey_append, hcf] at h
        simpa using h
      obtain ⟨i, hi, hmem, hpath⟩ := ih hrest
      refine ⟨i + 1, Nat.succ_lt_succ hi, hmem, ?_⟩
      rw [pathOfKey_append_right _ _ _ hcf]
      exact hpath

theorem not_nodup_allKeys_iff (files : List EnvFile)
    (hnodups : ∀ f ∈ files, (keysOfFile f).Nodup) :
    ¬ (allKeys files).Nodup ↔
      ∃ k, ∃ i j : Fin files.length, i ≠ j ∧
        k ∈ keysOfFile (files.get i) ∧ k ∈ keysOfFile (files.get j) := by
  unfold allKeys
  rw [List.nodup_flatten]
  constructor
  · intro hbad
    have hforall : ∀ l ∈ files.map keysOfFile, l.Nodup := by
      intro l hl
      obtain ⟨f, hf, he⟩ := List.mem_map.mp hl
      exact he ▸ hnodups f hf
    have hnopw : ¬ List.Pairwise List.Disjoint (files.map keysOfFile) := by
      intro hpw
      exact hbad ⟨hforall, hpw⟩
    rw [List.pairwise_map, List.pairwise_iff_getElem] at hnopw
    push_neg at hnopw
    obtain ⟨i, j, hi, hj, hij, hndisj⟩ := hnopw
    unfold List.Disjoint at hndisj
    push_neg at hndisj
    obtain ⟨k, hk1, hk2, _⟩ := hndisj
    refine ⟨k, ⟨i, hi⟩, ⟨j, hj⟩, ?_, ?_, ?_⟩
    · exact Fin.ne_of_val_ne (Nat.ne_of_lt hij)
    · simpa [List.get_eq_getElem] using hk1
    · simpa [List.get_eq_getElem] using hk2
  · rintro ⟨k, i, j, hij, hki, hkj⟩ ⟨hforall, hpw⟩
    rw [List.pairwise_map, List.pairwise_iff_getElem] at hpw
    rcases Nat.lt_or_ge i.val j.val with hlt | hge
    · exact hpw i.val j.val i.isLt j.isLt hlt (by simpa [List.get_eq_getElem] using hki)
        (by simpa [List.get_eq_getElem] using hkj)
    · have hlt : j.val < i.val := by
        rcases Nat.lt_or_eq_of_le hge with h | h
        · exact h
        · exact absurd (Fin.ext h.symm) hij
      exact hpw j.val i.val j.isLt i.isLt hlt (by simpa [List.get_eq_getElem] using hkj)
        (by simpa [List.get_eq_getElem] using hki)

/-- C2: collection over a file sequence (the caller processes files in
case-insensitive path sort order) with per-file distinct keys and distinct
paths fails with `DuplicateKey` exactly when some case-sensitive key is
defined by two distinct files; the reported error names the key, then the
second-encountered file, then the first-encountered file, and it arises at
the first colliding file — every key defined strictly before that file is
still unique at that point. -/
theorem c2_duplicate_key (files : List EnvFile)
    (hnodups : ∀ f ∈ files, (keysOfFile f).Nodup)
    (hpaths : (files.map EnvFile.path).Nodup) :
    ((∃ k, ∃ i j : Fin files.length, i ≠ j ∧
        k ∈ keysOfFile (files.get i) ∧ k ∈ keysOfFile (files.get j)) ↔
      ∃ k c p, collectFiles files [] = .error (.DuplicateKey k c p)) ∧
    ∀ k c p, collectFiles files [] = .error (.DuplicateKey k c p) →
      ∃ i j : Fin files.length, i < j ∧
        k ∈ keysOfFile (files.get i) ∧ (files.get i).path = p ∧
        k ∈ keysOfFile (files.get j) ∧ (files.get j).path = c ∧
        (allKeys (files.take j)).Nodup := by
  have hmain : ∀ k c p, collectFiles files [] = .error (.DuplicateKey k c p) →
      ∃ i j : Fin files.length, i < j ∧
        k ∈ keysOfFile (files.get i) ∧ (files.get i).path = p ∧
        k ∈ keysOfFile (files.get j) ∧ (files.get j).path = c ∧
        (allKeys (files.take j)).Nodup := by
    intro k c p herr
    have hbad : ¬ (allKeys files).Nodup := by
      intro hN
      have := collectFiles_ok files [] hnodups (by simpa [seenKeys] using hN)
      rw [this] at herr
      cases herr
    obtain ⟨j, hj, k0, hk0, hnod, hck, herr2⟩ :=
      collectFiles_error files [] hnodups (by simp [seenKeys])
        (by simpa [seenKeys] using hbad)
    rw [herr] at herr2
    injection herr2 with herr2
    injection herr2 with e1 e2 e3
    subst e1
    rw [List.nil_append] at hck
    obtain ⟨i, hi, hmem, hpath⟩ := exists_definer (files.take j) k hck
    have hilen : i < files.length := by
      have := hi
      rw [List.length_take] at this
      omega
    have hij : i < j := by
      have := hi
      rw [List.length_take] at this
      omega
    have hget_take : (files.take j).get ⟨i, hi⟩ = files.get ⟨i, hilen⟩ := by
      simp [List.get_eq_getElem, List.getElem_take]
    refine ⟨⟨i, hilen⟩, ⟨j, hj⟩, hij, ?_, ?_, hk0, e2.symm, ?_⟩
    · rw [← hget_take]
      exact hmem
    · rw [e3, List.nil_append, hpath, hget_take]
    · simpa [seenKeys] using hnod
  constructor
  · constructor
    · intro hshared
      have hbad : ¬ (allKeys files).Nodup :=
        (not_nodup_allKeys_iff files hnodups).mpr hshared
      obtain ⟨j, hj, k0, hk0, _, _, herr⟩ :=
        collectFiles_error files [] hnodups (by simp [seenKeys])
          (by simpa [seenKeys] using hbad)
      exact ⟨k0, _, _, herr⟩
    · rintro ⟨k, c, p, herr⟩
      obtain ⟨i, j, hij, hki, _, hkj, _, _⟩ := hmain k c p herr
      exact ⟨k, i, j, Fin.ne_of_lt hij, hki, hkj⟩
  · exact hmain

/-- C2 witness: two files sharing key `A`; the error names `A`, the later
file `duplicate.env`, then the earlier file `1.env`. -/
theorem c2_witness :
    (∀ f ∈ [(⟨"1.env", [("A", "1")]⟩ : EnvFile), ⟨"duplicate.env", [("A", "2")]⟩],
      (keysOfFile f).Nodup) ∧
    (([(⟨"1.env", [("A", "1")]⟩ : EnvFile), ⟨"duplicate.env", [("A", "2")]⟩].map
      EnvFile.path).Nodup) ∧
    collectFiles [(⟨"1.env", [("A", "1")]⟩ : EnvFile), ⟨"duplicate.env", [("A", "2")]⟩] [] =
      .error (.DuplicateKey "A" "duplicate.env" "1.env") ∧
    (∃ k c p,
      collectFiles [(⟨"1.env", [("A", "1")]⟩ : EnvFile), ⟨"duplicate.env", [("A", "2")]⟩] [] =
        .error (.DuplicateKey k c p)) := by
  refine ⟨by decide, by decide, rfl, ?_⟩
  exact (c2_duplicate_key _ (by decide) (by decide)).1.mp
    ⟨"A", ⟨0, by decide⟩, ⟨1, by decide⟩, by decide, by decide, by decide⟩

/-! ## Line splitting and joining -/

theorem joinWith_cons (sep : List Char) (l : List Char) (ls : List (List Char))
    (h : ls ≠ []) : joinWith sep (l :: ls) = l ++ sep ++ joinWith sep ls := by
  cases ls with
  | nil => exact absurd rfl h
  | cons l2 rest => rfl

theorem joinWith_append (sep : List Char) (l1 l2 : List (List Char))
    (h1 : l1 ≠ []) (h2 : l2 ≠ []) :
    joinWith sep (l1 ++ l2) = joinWith sep l1 ++ sep ++ joinWith sep l2 := by
  induction l1 with
  | nil => exact absurd rfl h1
  | cons x rest ih =>
    cases rest with
    | nil =>
      rw [List.singleton_append, joinWith_cons sep x l2 h2]
      rfl
    | cons y t =>
      rw [List.cons_append, joinWith_cons sep x ((y :: t) ++ l2) (by simp),
        joinWith_cons sep x (y :: t) (by simp), ih (by simp)]
      simp [List.append_assoc]

theorem splitNl_no_nl (l : List Char) (h : '\n' ∉ l) : splitNl l = [l] := by
  induction l with
  | nil => rfl
  | cons c cs ih =>
    have hc : ¬ c = '\n' := fun e => h (e ▸ List.mem_cons_self c cs)
    have hcs : '\n' ∉ cs := fun hm => h (List.mem_cons_of_mem c hm)
    simp only [splitNl, if_neg hc, ih hcs]

theorem splitNl_append (l t : List Char) (h : '\n' ∉ l) :
    splitNl (l ++ '\n' :: t) = l :: splitNl t := by
  induction l with
  | nil => simp [splitNl]
  | cons c cs ih =>
    have hc : ¬ c = '\n' := fun e => h (e ▸ List.mem_cons_self c cs)
    have hcs : '\n' ∉ cs := fun hm => h (List.mem_cons_of_mem c hm)
    rw [List.cons_append]
    simp only [splitNl, if_neg hc, ih hcs]

theorem splitNl_joinNl (ls : List (List Char)) (h : ls ≠ [])
    (hnl : ∀ l ∈ ls, '\n' ∉ l) : splitNl (joinNl ls) = ls := by
  induction ls with
  | nil => exact absurd rfl h
  | cons l rest ih =>
    cases rest with
    | nil => exact splitNl_no_nl l (hnl l (by simp))
    | cons l2 t =>
      have : joinNl (l :: l2 :: t) = l ++ '\n' :: joinNl (l2 :: t) := by
        rw [joinNl, joinWith_cons _ _ _ (by simp)]
        simp
      rw [this, splitNl_append _ _ (hnl l (by simp)),
        ih (by simp) (fun x hx => hnl x (by simp [hx]))]

theorem rustLines_joinNl (ls : List (List Char)) (h : ls ≠ [])
    (hnl : ∀ l ∈ ls, '\n' ∉ l) (hcr : ∀ l ∈ ls, l.getLast? ≠ some '\r') :
    rustLinesChars (joinNl ls ++ ['\n']) = ls := by
  have hexp : joinNl ls ++ ['\n'] = joinNl (ls ++ [[]]) := by
    rw [joinNl, joinWith_append _ ls [[]] h (by simp)]
    simp [joinWith]
  rw [rustLinesChars, hexp,
    splitNl_joinNl (ls ++ [[]]) (by simp) ?_]
  · have hcond : (ls ++ [([] : List Char)]).getLast? = some [] := List.getLast?_concat _
    rw [hcond, if_pos rfl, List.dropLast_concat]
    have : ∀ l ∈ ls, (if l.getLast? = some '\r' then l.dropLast else l) = l := by
      intro l hl
      rw [if_neg (hcr l hl)]
    calc ls.map (fun l => if l.getLast? = some '\r' then l.dropLast else l)
        = ls.map id := List.map_congr_left this
      _ = ls := List.map_id ls
  · intro l hl
    rcases List.mem_append.mp hl with h1 | h1
    · exact hnl l h1
    · rw [List.mem_singleton.mp h1]
      simp

/-! ## Character classes and trimming -/

theorem bare_not_ws (c : Char) (h : isBareKeyChar c = true) : isWs c = false := by
  cases hw : isWs c
  · rfl
  · exfalso
    have hcs : ((c = ' ' ∨ c = '\t') ∨ c = '\r') ∨ c = '\n' := by
      simpa [isWs, Char.isWhitespace] using hw
    rcases hcs with ((e | e) | e) | e <;> (subst e; exact absurd h (by decide))

theorem bare_ne_of (c x : Char) (h : isBareKeyChar c = true)
    (hx : isBareKeyChar x = false) : c ≠ x := by
  intro e
  rw [e, hx] at h
  cases h

theorem isBareKey_ne_nil (l : List Char) (h : isBareKey l = true) : l ≠ [] := by
  intro e
  subst e
  cases h

theorem isBareKey_mem (l : List Char) (h : isBareKey l = true) :
    ∀ c ∈ l, isBareKeyChar c = true := by
  unfold isBareKey at h
  rw [Bool.and_eq_true, List.all_eq_true] at h
  exact h.2

theorem isBareKey_head (l : List Char) (h : isBareKey l = true) :
    ∃ c, l.head? = some c ∧ isBareKeyChar c = true := by
  cases l with
  | nil => exact absurd rfl (isBareKey_ne_nil [] h)
  | cons c cs => exact ⟨c, rfl, isBareKey_mem _ h c (by simp)⟩

theorem isBareKey_getLast (l : List Char) (h : isBareKey l = true) :
    ∃ c, l.getLast? = some c ∧ isBareKeyChar c = true := by
  have hne := isBareKey_ne_nil l h
  exact ⟨l.getLast hne, List.getLast?_eq_getLast l hne,
    isBareKey_mem l h _ (List.getLast_mem hne)⟩

theorem dropWhile_eq_self_of_head (p : Char → Bool) (l : List Char)
    (h : ∀ c, l.head? = some c → p c = false) : l.dropWhile p = l := by
  cases l with
  | nil => rfl
  | cons c cs => simp [List.dropWhile_cons, h c rfl]

theorem trimChars_eq_self (l : List Char)
    (hh : ∀ c, l.head? = some c → isWs c = false)
    (hl : ∀ c, l.getLast? = some c → isWs c = false) : trimChars l = l := by
  unfold trimChars
  rw [dropWhile_eq_self_of_head _ _ hh,
    dropWhile_eq_self_of_head _ _ (fun c hc => hl c (by rwa [List.head?_reverse] at hc)),
    List.reverse_reverse]

theorem trimChars_bare_append_space (k : List Char) (hk : isBareKey k = true) :
    trimChars (k ++ [' ']) = k := by
  obtain ⟨c, hc, hbc⟩ := isBareKey_head k hk
  obtain ⟨d, hd, hbd⟩ := isBareKey_getLast k hk
  have hinner : List.dropWhile isWs (k ++ [' ']) = k ++ [' '] := by
    apply dropWhile_eq_self_of_head
    intro c' hc'
    rw [List.head?_append, hc] at hc'
    injection hc' with hc'
    exact hc' ▸ bare_not_ws c hbc
  have hrev : (k ++ [' ']).reverse = ' ' :: k.reverse := by
    rw [List.reverse_append]
    rfl
  have houter : List.dropWhile isWs (' ' :: k.reverse) = k.reverse := by
    rw [List.dropWhile_cons, if_pos (by decide : isWs ' ' = true)]
    apply dropWhile_eq_self_of_head
    intro c' hc'
    rw [List.head?_reverse, hd] at hc'
    injection hc' with hc'
    exact hc' ▸ bare_not_ws d hbd
  unfold trimChars
  rw [hinner, hrev, houter, List.reverse_reverse]

theorem trimChars_cons_space (l : List Char)
    (hh : ∀ c, l.head? = some c → isWs c = false)
    (hl : ∀ c, l.getLast? = some c → isWs c = false) :
    trimChars (' ' :: l) = l := by
  unfold trimChars
  rw [List.dropWhile_cons, if_pos (by decide : isWs ' ' = true),
    dropWhile_eq_self_of_head _ _ hh,
    dropWhile_eq_self_of_head _ _ (fun c hc => hl c (by rwa [List.head?_reverse] at hc)),
    List.reverse_reverse]

/-! ## Escaping and basic-string parsing -/

theorem escapeChars_no_nl (l : List Char) (h : '\n' ∉ l) : '\n' ∉ escapeChars l := by
  induction l with
  | nil => simp [escapeChars]
  | cons c cs ih =>
    have hc : c ≠ '\n' := fun e => h (e ▸ List.mem_cons_self c cs)
    have hcs : '\n' ∉ cs := fun hm => h (List.mem_cons_of_mem c hm)
    unfold escapeChars
    by_cases h1 : c = '"'
    · rw [if_pos h1]
      intro hm
      rcases List.mem_cons.mp hm with e | hm2
      · exact absurd e (by decide)
      rcases List.mem_cons.mp hm2 with e | hm3
      · exact absurd e (by decide)
      · exact ih hcs hm3
    · rw [if_neg h1]
      by_cases h2 : c = '\\'
      · rw [if_pos h2]
        intro hm
        rcases List.mem_cons.mp hm with e | hm2
        · exact absurd e (by decide)
        rcases List.mem_cons.mp hm2 with e | hm3
        · exact absurd e (by decide)
        · exact ih hcs hm3
      · rw [if_neg h2]
        intro hm
        rcases List.mem_cons.mp hm with e | hm2
        · exact absurd e.symm hc
        · exact ih hcs hm2

theorem parseBasicString_quote (X : List Char) :
    parseBasicString ('"' :: X) = some ([], X) := by
  conv_lhs => rw [parseBasicString.eq_def]
  simp

theorem parseBasicString_cons_escaped (e : Char) (X : List Char)
    (he : e = '"' ∨ e = '\\') :
    parseBasicString ('\\' :: e :: X) =
      match parseBasicString X with
      | some (s, r) => some (e :: s, r)
      | none => none := by
  conv_lhs => rw [parseBasicString.eq_def]
  simp [he]

theorem parseBasicString_cons_other (c : Char) (X : List Char)
    (h1 : ¬ c = '"') (h2 : ¬ c = '\\') (hc : ¬ c = '\n') :
    parseBasicString (c :: X) =
      match parseBasicString X with
      | some (s, r) => some (c :: s, r)
      | none => none := by
  conv_lhs => rw [parseBasicString.eq_def]
  simp [h1, h2, hc]

theorem parseBasicString_escape (l : List Char) (h : '\n' ∉ l) :
    parseBasicString (escapeChars l ++ ['"']) = some (l, []) := by
  induction l with
  | nil => rfl
  | cons c cs ih =>
    have hc : ¬ c = '\n' := fun e => h (e ▸ List.mem_cons_self c cs)
    have hcs : '\n' ∉ cs := fun hm => h (List.mem_cons_of_mem c hm)
    by_cases h1 : c = '"'
    · subst h1
      rw [show escapeChars ('"' :: cs) = '\\' :: '"' :: escapeChars cs from by
        simp [escapeChars]]
      rw [List.cons_append, List.cons_append,
        parseBasicString_cons_escaped _ _ (Or.inl rfl), ih hcs]
    · by_cases h2 : c = '\\'
      · subst h2
        rw [show escapeChars ('\\' :: cs) = '\\' :: '\\' :: escapeChars cs from by
          simp [escapeChars]]
        rw [List.cons_append, List.cons_append,
          parseBasicString_cons_escaped _ _ (Or.inr rfl), ih hcs]
      · rw [show escapeChars (c :: cs) = c :: escapeChars cs from by
          simp [escapeChars, h1, h2]]
        rw [List.cons_append, parseBasicString_cons_other c _ h1 h2 hc, ih hcs]

/-! ## Splitting a line at its first delimiter -/

theorem splitFirstEq_append (a b : List Char) (h : '=' ∉ a) :
    splitFirstEq (a ++ '=' :: b) = some (a, b) := by
  induction a with
  | nil => simp [splitFirstEq]
  | cons c cs ih =>
    have hc : ¬ c = '=' := fun e => h (e ▸ List.mem_cons_self c cs)
    have hcs : '=' ∉ cs := fun hm => h (List.mem_cons_of_mem c hm)
    rw [List.cons_append]
    simp only [splitFirstEq, if_neg hc, ih hcs]

theorem splitFirstClose_append (a b : List Char) (h : ']' ∉ a) :
    splitFirstClose (a ++ ']' :: b) = some (a, b) := by
  induction a with
  | nil => simp [splitFirstClose]
  | cons c cs ih =>
    have hc : ¬ c = ']' := fun e => h (e ▸ List.mem_cons_self c cs)
    have hcs : ']' ∉ cs := fun hm => h (List.mem_cons_of_mem c hm)
    rw [List.cons_append]
    simp only [splitFirstClose, if_neg hc, ih hcs]

/-! ## Classifying serialized lines -/

/-- An entry in the fragment the printer and parser both cover: a bare key
bound to a string value with no newline. -/
def GoodEntry (kv : String × Toml) : Prop :=
  isBareKey kv.1.data = true ∧ ∃ v, kv.2 = Toml.str v ∧ '\n' ∉ v.data

theorem entryLine_no_nl (k : String) (v : String) (hk : isBareKey k.data = true)
    (hv : '\n' ∉ v.data) : '\n' ∉ entryLine k (.str v) := by
  intro hm
  rw [show entryLine k (.str v) =
    k.data ++ (" = ").data ++ ('"' :: (escapeChars v.data ++ ['"'])) from rfl] at hm
  rcases List.mem_append.mp hm with h1 | h1
  · rcases List.mem_append.mp h1 with h2 | h2
    · exact absurd (isBareKey_mem _ hk '\n' h2) (by decide)
    · exact absurd h2 (by decide)
  · rcases List.mem_cons.mp h1 with e | h2
    · exact absurd e (by decide)
    rcases List.mem_append.mp h2 with h3 | h3
    · exact escapeChars_no_nl _ hv h3
    · exact absurd (List.mem_singleton.mp h3) (by decide)

theorem entryLine_getLast (k : String) (v : String) :
    (entryLine k (.str v)).getLast? = some '"' := by
  rw [show entryLine k (.str v) =
    k.data ++ (" = ").data ++ ('"' :: (escapeChars v.data ++ ['"'])) from rfl]
  rw [show k.data ++ (" = ").data ++ ('"' :: (escapeChars v.data ++ ['"'])) =
    (k.data ++ (" = ").data ++ ('"' :: escapeChars v.data)) ++ ['"'] by simp]
  exact List.getLast?_concat _

theorem classify_entry_core (K V : List Char) (hK : isBareKey K = true)
    (hV : '\n' ∉ V) :
    classifyLine (K ++ [' ', '=', ' '] ++ ('"' :: (escapeChars V ++ ['"']))) =
      some (.kv K V) := by
  obtain ⟨c0, cs, rfl⟩ : ∃ c0 cs, K = c0 :: cs := by
    cases K with
    | nil => exact absurd rfl (isBareKey_ne_nil [] hK)
    | cons a b => exact ⟨a, b, rfl⟩
  have hbc0 : isBareKeyChar c0 = true := isBareKey_mem _ hK c0 (by simp)
  have hlast : ((c0 :: cs) ++ [' ', '=', ' '] ++ ('"' :: (escapeChars V ++ ['"']))).getLast? = some '"' := by
    rw [show (c0 :: cs) ++ [' ', '=', ' '] ++ ('"' :: (escapeChars V ++ ['"'])) =
      ((c0 :: cs) ++ [' ', '=', ' '] ++ ('"' :: escapeChars V)) ++ ['"'] by simp]
    exact List.getLast?_concat _
  have htrim : trimChars ((c0 :: cs) ++ [' ', '=', ' '] ++ ('"' :: (escapeChars V ++ ['"']))) =
      (c0 :: cs) ++ [' ', '=', ' '] ++ ('"' :: (escapeChars V ++ ['"'])) := by
    apply trimChars_eq_self
    · intro c hc
      injection hc with hc
      exact hc ▸ bare_not_ws c0 hbc0
    · intro c hc
      rw [hlast] at hc
      injection hc with hc
      subst hc
      decide
  have hsplit : splitFirstEq ((c0 :: cs) ++ [' ', '=', ' '] ++ ('"' :: (escapeChars V ++ ['"']))) =
      some ((c0 :: cs) ++ [' '], ' ' :: ('"' :: (escapeChars V ++ ['"']))) := by
    rw [show (c0 :: cs) ++ [' ', '=', ' '] ++ ('"' :: (escapeChars V ++ ['"'])) =
      ((c0 :: cs) ++ [' ']) ++ '=' :: (' ' :: ('"' :: (escapeChars V ++ ['"']))) by simp]
    apply splitFirstEq_append
    intro hm
    rcases List.mem_append.mp hm with h1 | h1
    · exact absurd (isBareKey_mem _ hK '=' h1) (by decide)
    · exact absurd (List.mem_singleton.mp h1) (by decide)
  have hkey : trimChars ((c0 :: cs) ++ [' ']) = c0 :: cs :=
    trimChars_bare_append_space _ hK
  have hval : trimChars (' ' :: ('"' :: (escapeChars V ++ ['"']))) =
      '"' :: (escapeChars V ++ ['"']) := by
    apply trimChars_cons_space
    · intro c hc
      injection hc with hc
      subst hc
      decide
    · intro c hc
      rw [show ('"' :: (escapeChars V ++ ['"'])) = ('"' :: escapeChars V) ++ ['"'] by simp,
        List.getLast?_concat] at hc
      injection hc with hc
      subst hc
      decide
  have hquoted : parseQuoted ('"' :: (escapeChars V ++ ['"'])) = some V := by
    simp [parseQuoted, parseBasicString_escape V hV, restOk]
  have hne1 : ¬ c0 = '#' := bare_ne_of c0 '#' hbc0 (by decide)
  have hne2 : ¬ c0 = '[' := bare_ne_of c0 '[' hbc0 (by decide)
  simp only [List.cons_append] at htrim hsplit hkey ⊢
  simp only [classifyLine, htrim, hne1, hne2, if_false, if_neg hne1, if_neg hne2,
    hsplit, hkey, hval, hquoted, if_pos hK]

theorem classify_header_core (N : List Char) (hN : isBareKey N = true) :
    classifyLine ('[' :: (N ++ [']'])) = some (.header N) := by
  have hlast : ('[' :: (N ++ [']'])).getLast? = some ']' := by
    rw [show ('[' :: (N ++ [']'])) = ('[' :: N) ++ [']'] by simp]
    exact List.getLast?_concat _
  have htrim : trimChars ('[' :: (N ++ [']'])) = '[' :: (N ++ [']']) := by
    apply trimChars_eq_self
    · intro c hc
      injection hc with hc
      subst hc
      decide
    · intro c hc
      rw [hlast] at hc
      injection hc with hc
      subst hc
      decide
  have hsplit : splitFirstClose (N ++ [']']) = some (N, []) := by
    rw [show N ++ [']'] = N ++ ']' :: [] by simp]
    apply splitFirstClose_append
    intro hm
    exact absurd (isBareKey_mem _ hN ']' hm) (by decide)
  simp only [classifyLine, htrim, hsplit, hN, restOk]
  simp

/-! ## Stepping the document builder -/

theorem buildDoc_cons_blank (l : List Char) (rest : List (List Char))
    (root : List (String × Toml)) (cur : Option (String × List (String × Toml)))
    (h : classifyLine l = some .blank) :
    buildDoc (l :: rest) root cur = buildDoc rest root cur := by
  conv_lhs => rw [buildDoc.eq_def]
  simp [h]

theorem buildDoc_cons_header_none (l : List Char) (rest : List (List Char))
    (root : List (String × Toml)) (nm : List Char)
    (h : classifyLine l = some (.header nm)) :
    buildDoc (l :: rest) root none = buildDoc rest root (some (String.mk nm, [])) := by
  conv_lhs => rw [buildDoc.eq_def]
  simp [h, flushSection]

theorem buildDoc_cons_kv_section (l : List Char) (rest : List (List Char))
    (root : List (String × Toml)) (n : String) (es : List (String × Toml))
    (k v : List Char)
    (hcl : classifyLine l = some (.kv k v))
    (hdup : tableContains es (String.mk k) = false) :
    buildDoc (l :: rest) root (some (n, es)) =
      buildDoc rest root (some (n, es ++ [(String.mk k, .str (String.mk v))])) := by
  conv_lhs => rw [buildDoc.eq_def]
  simp [hcl, hdup]

theorem buildDoc_nil_flush (root : List (String × Toml)) (n : String)
    (es : List (String × Toml)) (h : tableContains root n = false) :
    buildDoc [] root (some (n, es)) = some (root ++ [(n, .table es)]) := by
  simp [buildDoc, flushSection, h]

theorem buildDoc_entries (m : List (String × Toml)) (rest : List (List Char))
    (root : List (String × Toml)) (n : String) (acc : List (String × Toml))
    (hgood : ∀ kv ∈ m, GoodEntry kv)
    (hnodup : (acc.map Prod.fst ++ m.map Prod.fst).Nodup) :
    buildDoc ((m.map (fun e => entryLine e.1 e.2)) ++ rest) root (some (n, acc)) =
      buildDoc rest root (some (n, acc ++ m)) := by
  induction m generalizing acc with
  | nil => simp
  | cons kv ms ih =>
    obtain ⟨k0, t0⟩ := kv
    obtain ⟨hbare, v0, ht0, hnl⟩ := hgood (k0, t0) (by simp)
    have hbare2 : isBareKey k0.data = true := hbare
    have ht02 : t0 = Toml.str v0 := ht0
    have hcl : classifyLine (entryLine k0 t0) = some (.kv k0.data v0.data) := by
      rw [ht02]
      exact classify_entry_core k0.data v0.data hbare2 hnl
    have hk0acc : tableContains acc (String.mk k0.data) = false := by
      rw [String.mk_data, tableContains_eq_false]
      intro hmem
      have hparts := List.nodup_append.mp hnodup
      exact hparts.2.2 hmem (by simp)
    have hstep := buildDoc_cons_kv_section (entryLine k0 t0)
      ((ms.map (fun e => entryLine e.1 e.2)) ++ rest) root n acc k0.data v0.data hcl hk0acc
    rw [List.map_cons, List.cons_append, hstep, String.mk_data, String.mk_data, ← ht02]
    rw [ih (acc ++ [(k0, t0)]) (fun kv hkv => hgood kv (by simp [hkv])) ?_]
    · rw [List.append_assoc, List.singleton_append]
    · simp only [List.map_append, List.map_cons, List.map_nil] at hnodup ⊢
      rw [List.append_assoc, List.singleton_append]
      exact hnodup

/-! ## Inserting the collected entries into a fresh section -/

theorem tableContains_append (t1 t2 : List (String × Toml)) (k : String) :
    tableContains (t1 ++ t2) k = (tableContains t1 k || tableContains t2 k) := by
  cases h1 : tableContains t1 k
  · cases h2 : tableContains t2 k
    · simp only [Bool.or_self]
      rw [tableContains_eq_false, List.map_append]
      intro hm
      rcases List.mem_append.mp hm with h | h
      · exact (tableContains_eq_false _ _).mp h1 h
      · exact (tableContains_eq_false _ _).mp h2 h
    · simp only [Bool.or_true]
      rw [tableContains_iff, List.map_append]
      exact List.mem_append_right _ ((tableContains_iff _ _).mp h2)
  · simp only [Bool.true_or]
    rw [tableContains_iff, List.map_append]
    exact List.mem_append_left _ ((tableContains_iff _ _).mp h1)

theorem insertEnvVars_disjoint (E : List (String × String)) (t : List (String × Toml))
    (hnodup : (E.map Prod.fst).Nodup)
    (hdisj : ∀ k ∈ E.map Prod.fst, tableContains t k = false) :
    insertEnvVars t E = t ++ E.map (fun kv => (kv.1, Toml.str kv.2)) := by
  induction E generalizing t with
  | nil => simp [insertEnvVars]
  | cons kv rest ih =>
    obtain ⟨k, v⟩ := kv
    rw [List.map_cons, List.nodup_cons] at hnodup
    have hk : tableContains t k = false := hdisj k (by simp)
    show insertEnvVars (tableInsert t k (.str v)) rest = _
    rw [tableInsert_of_not_contains t k _ hk, ih _ hnodup.2 ?_]
    · simp
    · intro k' hk'
      rw [tableContains_append, hdisj k' (by simp [hk'])]
      have hne : ¬ k = k' := fun e => hnodup.1 (e ▸ hk')
      simp [tableContains, tableGet_cons, hne, tableGet_nil]

theorem insertEnvVars_nil_map (E : List (String × String))
    (hnodup : (E.map Prod.fst).Nodup) :
    insertEnvVars [] E = E.map (fun kv => (kv.1, Toml.str kv.2)) := by
  simpa using insertEnvVars_disjoint E [] hnodup (fun k _ => rfl)

theorem insertEnvVars_absorb (t : List (String × Toml)) (E : List (String × String))
    (h : ∀ kv ∈ E, tableGet t kv.1 = some (.str kv.2)) : insertEnvVars t E = t := by
  induction E with
  | nil => rfl
  | cons kv rest ih =>
    obtain ⟨k, v⟩ := kv
    show insertEnvVars (tableInsert t k (.str v)) rest = t
    rw [tableInsert_self_eq t k _ (h (k, v) (by simp))]
    exact ih (fun kv hkv => h kv (by simp [hkv]))

theorem vecInsert_at_length (l : List α) (a : α) : vecInsert l l.length a = l ++ [a] := by
  induction l with
  | nil => rfl
  | cons x xs ih => simp [vecInsert, List.length_cons, ih]

/-! ## The serialized form of a freshly created document -/

theorem prettyLines_fresh (m : List (String × Toml)) :
    prettyLines [("env", .table m)] =
      ('[' :: ("env".data ++ [']'])) :: m.map (fun e => entryLine e.1 e.2) := by
  simp [prettyLines, scalarLines, sectionBlocks, joinBlocks]

theorem fresh_lines_no_nl (m : List (String × Toml))
    (hgood : ∀ kv ∈ m, GoodEntry kv) :
    ∀ l ∈ ('[' :: ("env".data ++ [']'])) :: m.map (fun e => entryLine e.1 e.2),
      '\n' ∉ l := by
  intro l hl
  rcases List.mem_cons.mp hl with e | hl2
  · subst e
    decide
  · obtain ⟨e, he, hel⟩ := List.mem_map.mp hl2
    obtain ⟨hbare, v, hv, hnlv⟩ := hgood e he
    have hbare2 : isBareKey e.1.data = true := hbare
    have hv2 : e.2 = Toml.str v := hv
    rw [← hel, hv2]
    exact entryLine_no_nl e.1 v hbare2 hnlv

theorem fresh_lines_no_cr (m : List (String × Toml))
    (hgood : ∀ kv ∈ m, GoodEntry kv) :
    ∀ l ∈ ('[' :: ("env".data ++ [']'])) :: m.map (fun e => entryLine e.1 e.2),
      l.getLast? ≠ some '\r' := by
  intro l hl
  rcases List.mem_cons.mp hl with e | hl2
  · subst e
    decide
  · obtain ⟨e, he, hel⟩ := List.mem_map.mp hl2
    obtain ⟨_, v, hv, _⟩ := hgood e he
    have hv2 : e.2 = Toml.str v := hv
    rw [← hel, hv2, entryLine_getLast]
    decide

theorem add_prefix_fresh (m : List (String × Toml))
    (hgood : ∀ kv ∈ m, GoodEntry kv) :
    add_prefix [("env", .table m)] m.length =
      String.mk (joinNl (START.data ::
        (('[' :: ("env".data ++ [']'])) :: m.map (fun e => entryLine e.1 e.2)) ++
        [END.data])) := by
  have hidx : env_section_index [("env", .table m)] = 0 := rfl
  have hts : to_string_pretty [("env", .table m)] =
      String.mk (joinNl (('[' :: ("env".data ++ [']'])) ::
        m.map (fun e => entryLine e.1 e.2)) ++ ['\n']) := by
    rw [show to_string_pretty [("env", .table m)] =
      (match prettyLines [("env", .table m)] with
        | [] => ""
        | ls => String.mk (joinNl ls ++ ['\n'])) from rfl]
    rw [prettyLines_fresh]
  have hlines : rustLinesChars (to_string_pretty [("env", .table m)]).data =
      ('[' :: ("env".data ++ [']'])) :: m.map (fun e => entryLine e.1 e.2) := by
    rw [hts]
    exact rustLines_joinNl _ (by simp) (fresh_lines_no_nl m hgood)
      (fresh_lines_no_cr m hgood)
  show String.mk (joinNl (vecInsert
      (vecInsert (rustLinesChars (to_string_pretty [("env", .table m)]).data)
        (env_section_index [("env", .table m)]) START.data)
      (env_section_index [("env", .table m)] + m.length + 2) END.data)) = _
  rw [hidx, hlines]
  rw [show vecInsert (('[' :: ("env".data ++ [']'])) ::
      m.map (fun e => entryLine e.1 e.2)) 0 START.data =
    START.data :: ('[' :: ("env".data ++ [']'])) ::
      m.map (fun e => entryLine e.1 e.2) from rfl]
  have hlen : 0 + m.length + 2 = (START.data :: ('[' :: ("env".data ++ [']'])) ::
      m.map (fun e => entryLine e.1 e.2)).length := by
    simp [List.length_map]
  rw [hlen, vecInsert_at_length]

theorem joinNl_expand (mid : List (List Char)) (hmid : mid ≠ []) (a b : List Char) :
    joinNl ((a ++ ['\n']) :: (mid ++ [('\n' :: b) ++ ['\n']])) =
      joinNl (a :: [] :: (mid ++ [[], b, []])) := by
  simp only [joinNl]
  rw [joinWith_cons _ _ _ (by simp)]
  rw [joinWith_append _ mid [('\n' :: b) ++ ['\n']] hmid (by simp)]
  rw [joinWith_cons _ a ([] :: (mid ++ [[], b, []])) (by simp)]
  rw [joinWith_cons _ [] (mid ++ [[], b, []]) (by simp [hmid])]
  rw [joinWith_append _ mid [[], b, []] hmid (by simp)]
  rw [show joinWith ['\n'] [('\n' :: b) ++ ['\n']] = ('\n' :: b) ++ ['\n'] from rfl]
  rw [show joinWith ['\n'] [[], b, []] = [] ++ ['\n'] ++ (b ++ ['\n'] ++ []) from by
    rw [joinWith_cons _ _ _ (by simp), joinWith_cons _ _ _ (by simp)]
    rfl]
  simp [List.append_assoc]

theorem splitNl_fresh (m : List (String × Toml))
    (hgood : ∀ kv ∈ m, GoodEntry kv) :
    splitNl (String.mk (joinNl (START.data ::
      (('[' :: ("env".data ++ [']'])) :: m.map (fun e => entryLine e.1 e.2)) ++
      [END.data]))).data =
    "# GENERATED BY ENV_TO_CONFIG_TOML START".data :: [] ::
      ('[' :: ("env".data ++ [']'])) ::
      (m.map (fun e => entryLine e.1 e.2) ++
        [[], "# GENERATED BY ENV_TO_CONFIG_TOML END".data, []]) := by
  have hS : START.data = "# GENERATED BY ENV_TO_CONFIG_TOML START".data ++ ['\n'] := rfl
  have hE : END.data = ('\n' :: "# GENERATED BY ENV_TO_CONFIG_TOML END".data) ++ ['\n'] := rfl
  have hshape : START.data ::
      (('[' :: ("env".data ++ [']'])) :: m.map (fun e => entryLine e.1 e.2)) ++
      [END.data] =
      ("# GENERATED BY ENV_TO_CONFIG_TOML START".data ++ ['\n']) ::
      ((('[' :: ("env".data ++ [']'])) :: m.map (fun e => entryLine e.1 e.2)) ++
        [('\n' :: "# GENERATED BY ENV_TO_CONFIG_TOML END".data) ++ ['\n']]) := by
    rw [← hS, ← hE]
    simp
  rw [show (String.mk (joinNl (START.data ::
      (('[' :: ("env".data ++ [']'])) :: m.map (fun e => entryLine e.1 e.2)) ++
      [END.data]))).data = joinNl (START.data ::
      (('[' :: ("env".data ++ [']'])) :: m.map (fun e => entryLine e.1 e.2)) ++
      [END.data]) from rfl]
  rw [hshape, joinNl_expand _ (by simp) _ _]
  rw [splitNl_joinNl _ (by simp) ?_]
  · simp
  · intro l hl
    rcases List.mem_cons.mp hl with e | hl2
    · subst e
      decide
    rcases List.mem_cons.mp hl2 with e | hl3
    · subst e
      simp
    rcases List.mem_append.mp hl3 with h4 | h4
    · exact fresh_lines_no_nl m hgood l h4
    · rcases List.mem_cons.mp h4 with e | h5
      · subst e
        simp
      rcases List.mem_cons.mp h5 with e | h6
      · subst e
        decide
      · rcases List.mem_singleton.mp h6 with e
        subst e
        simp

theorem parse_fresh (m : List (String × Toml))
    (hgood : ∀ kv ∈ m, GoodEntry kv) (hnodup : (m.map Prod.fst).Nodup) :
    toml_from_str (String.mk (joinNl (START.data ::
      (('[' :: ("env".data ++ [']'])) :: m.map (fun e => entryLine e.1 e.2)) ++
      [END.data]))) = .ok [("env", .table m)] := by
  have hbl1 : classifyLine "# GENERATED BY ENV_TO_CONFIG_TOML START".data = some .blank := rfl
  have hbl2 : classifyLine ([] : List Char) = some .blank := rfl
  have hbl3 : classifyLine "# GENERATED BY ENV_TO_CONFIG_TOML END".data = some .blank := rfl
  have hfl : tableContains [] "env" = false := rfl
  unfold toml_from_str
  rw [splitNl_fresh m hgood]
  rw [buildDoc_cons_blank _ _ _ _ hbl1]
  rw [buildDoc_cons_blank _ _ _ _ hbl2]
  rw [buildDoc_cons_header_none _ _ _ _ (classify_header_core "env".data (by decide))]
  rw [show String.mk "env".data = "env" from rfl]
  rw [buildDoc_entries m _ _ "env" [] hgood (by simpa using hnodup)]
  rw [buildDoc_cons_blank _ _ _ _ hbl2]
  rw [buildDoc_cons_blank _ _ _ _ hbl3]
  rw [buildDoc_cons_blank _ _ _ _ hbl2]
  rw [buildDoc_nil_flush _ _ _ hfl]
  simp

/-! ## C1: idempotence of the merge from an empty document -/

/-- C1: for entry sequences with distinct bare keys and newline-free values
(which is what collection produces), merging into the empty document
succeeds, and re-running the merge with the same entries on the first run's
own output reproduces that output byte for byte. -/
theorem c1_merge_idempotent (E : List (String × String))
    (hnodup : (E.map Prod.fst).Nodup)
    (hgood : ∀ kv ∈ E, isBareKey kv.1.data = true ∧ '\n' ∉ kv.2.data) :
    ∃ out, merge_existing_toml E "" = .ok out ∧
      merge_existing_toml E out = .ok out := by
  have hfirst : merge_existing_toml E "" =
      .ok ( add_prefix [("env", .table (insertEnvVars [] E))]
        (insertEnvVars [] E).length) := rfl
  set m := insertEnvVars [] E with hm
  have hmap : m = E.map (fun kv => (kv.1, Toml.str kv.2)) := by
    rw [hm]
    exact insertEnvVars_nil_map E hnodup
  have hgoodm : ∀ kv ∈ m, GoodEntry kv := by
    rw [hmap]
    intro kv hkv
    obtain ⟨e, he, hkv2⟩ := List.mem_map.mp hkv
    obtain ⟨h1, h2⟩ := hgood e he
    subst hkv2
    exact ⟨h1, e.2, rfl, h2⟩
  have hkeys : m.map Prod.fst = E.map Prod.fst := by
    rw [hmap, List.map_map]
    rfl
  have hnodupm : (m.map Prod.fst).Nodup := by
    rw [hkeys]
    exact hnodup
  have hout := add_prefix_fresh m hgoodm
  have hparse : toml_from_str ( add_prefix [("env", .table m)] m.length) =
      .ok [("env", .table m)] := by
    rw [hout]
    exact parse_fresh m hgoodm hnodupm
  refine ⟨ add_prefix [("env", .table m)] m.length, hfirst, ?_⟩
  have habs : insertEnvVars m E = m := by
    apply insertEnvVars_absorb
    intro kv hkv
    rw [hm]
    exact insertEnvVars_get_supplied E [] kv.1 kv.2 hnodup hkv
  have hens : ensureEnv [("env", Toml.table m)] = [("env", Toml.table m)] := by
    simp [ensureEnv, tableContains, tableGet_cons]
  have hget : tableGet (ensureEnv [("env", Toml.table m)]) "env" =
      some (.table m) := by
    rw [hens, tableGet_cons, if_pos rfl]
  have hset : setEnv (ensureEnv [("env", Toml.table m)]) (.table m) =
      [("env", Toml.table m)] := by
    rw [hens]
    show tableInsert _ "env" _ = _
    rw [tableInsert_cons, if_pos rfl]
  simp only [merge_existing_toml, hparse, hget, habs, hset]

/-- C1 witness: two concrete entries. -/
theorem c1_witness :
    (([("A", "1"), ("B", "2")].map Prod.fst).Nodup) ∧
    (∀ kv ∈ [("A", "1"), ("B", "2")],
      isBareKey kv.1.data = true ∧ '\n' ∉ kv.2.data) ∧
    (∃ out, merge_existing_toml [("A", "1"), ("B", "2")] "" = .ok out ∧
      merge_existing_toml [("A", "1"), ("B", "2")] out = .ok out) :=
  ⟨by decide, by decide, c1_merge_idempotent [("A", "1"), ("B", "2")]
    (by decide) (by decide)⟩

/-! ## C6 amended: marker placement -/

/-- C6 (amended): the start marker is inserted at the line index equal to the
number of root keys preceding `env`, which is the header's own line index
only when the `env` section is the document's first element; in particular,
for a merge into the empty document the output's lines are exactly the start
marker, a blank line, the `[env]` header, the entry lines, a blank line, the
end marker, and a final empty piece from the trailing newline — the markers
bracket the section exactly there. -/
theorem c6_marker_lines (E : List (String × String))
    (hnodup : (E.map Prod.fst).Nodup)
    (hgood : ∀ kv ∈ E, isBareKey kv.1.data = true ∧ '\n' ∉ kv.2.data) :
    ∃ out, merge_existing_toml E "" = .ok out ∧
      splitNl out.data =
        "# GENERATED BY ENV_TO_CONFIG_TOML START".data :: [] ::
        ('[' :: ("env".data ++ [']'])) ::
        ((insertEnvVars [] E).map (fun e => entryLine e.1 e.2) ++
          [[], "# GENERATED BY ENV_TO_CONFIG_TOML END".data, []]) := by
  have hfirst : merge_existing_toml E "" =
      .ok ( add_prefix [("env", .table (insertEnvVars [] E))]
        (insertEnvVars [] E).length) := rfl
  set m := insertEnvVars [] E with hm
  have hmap : m = E.map (fun kv => (kv.1, Toml.str kv.2)) := by
    rw [hm]
    exact insertEnvVars_nil_map E hnodup
  have hgoodm : ∀ kv ∈ m, GoodEntry kv := by
    rw [hmap]
    intro kv hkv
    obtain ⟨e, he, hkv2⟩ := List.mem_map.mp hkv
    obtain ⟨h1, h2⟩ := hgood e he
    subst hkv2
    exact ⟨h1, e.2, rfl, h2⟩
  refine ⟨ add_prefix [("env", .table m)] m.length, hfirst, ?_⟩
  rw [add_prefix_fresh m hgoodm]
  exact splitNl_fresh m hgoodm

/-- C6 amended witness: one concrete entry. -/
theorem c6_witness :
    (([("A", "1")].map Prod.fst).Nodup) ∧
    (∀ kv ∈ [("A", "1")], isBareKey kv.1.data = true ∧ '\n' ∉ kv.2.data) ∧
    (∃ out, merge_existing_toml [("A", "1")] "" = .ok out ∧
      splitNl out.data =
        "# GENERATED BY ENV_TO_CONFIG_TOML START".data :: [] ::
        ('[' :: ("env".data ++ [']'])) ::
        ((insertEnvVars [] [("A", "1")]).map (fun e => entryLine e.1 e.2) ++
          [[], "# GENERATED BY ENV_TO_CONFIG_TOML END".data, []])) :=
  ⟨by decide, by decide, c6_marker_lines [("A", "1")] (by decide) (by decide)⟩

/-! ## C8: the end-to-end example -/

theorem perm_pair_cases {α : Type} (l : List α) (a b : α) (h : l.Perm [a, b]) :
    l = [a, b] ∨ l = [b, a] := by
  have hlen := h.length_eq
  cases l with
  | nil => simp at hlen
  | cons x t =>
    cases t with
    | nil => simp at hlen
    | cons y t2 =>
      cases t2 with
      | cons z t3 => simp at hlen
      | nil =>
        have hx : x = a ∨ x = b := by
          have hmem : x ∈ [a, b] := h.mem_iff.mp (by simp)
          simpa using hmem
        rcases hx with e | e
        · subst e
          left
          have h2 : [y].Perm [b] := h.cons_inv
          rw [List.perm_singleton.mp h2]
        · subst e
          right
          have hswap : ([x, a] : List α).Perm [a, x] := List.Perm.swap a x []
          have h2 : [y].Perm [a] := (h.trans hswap.symm).cons_inv
          rw [List.perm_singleton.mp h2]

/-- C8: collecting `1.env` (`A=1`) and `2.env` (`B=2`) yields the two
entries in order (for any hash iteration order of the two collected pairs),
merging them into the empty document succeeds, and the output is a document
whose root holds exactly one `env` section with `A = "1"` and `B = "2"`,
bracketed by the start and end marker lines. -/
theorem c8_end_to_end (hp : List (String × String) → List (String × String))
    (hhp : (hp [("A", "1"), ("B", "2")]).Perm [("A", "1"), ("B", "2")]) :
    get_env_vars "src/test_data/[0-9].env"
        [⟨"1.env", [("A", "1")]⟩, ⟨"2.env", [("B", "2")]⟩] hp =
      .ok [("A", "1"), ("B", "2")] ∧
    merge_existing_toml [("A", "1"), ("B", "2")] "" =
      .ok "# GENERATED BY ENV_TO_CONFIG_TOML START\n\n[env]\nA = \"1\"\nB = \"2\"\n\n# GENERATED BY ENV_TO_CONFIG_TOML END\n" ∧
    toml_from_str "# GENERATED BY ENV_TO_CONFIG_TOML START\n\n[env]\nA = \"1\"\nB = \"2\"\n\n# GENERATED BY ENV_TO_CONFIG_TOML END\n" =
      .ok [("env", .table [("A", .str "1"), ("B", .str "2")])] ∧
    splitNl "# GENERATED BY ENV_TO_CONFIG_TOML START\n\n[env]\nA = \"1\"\nB = \"2\"\n\n# GENERATED BY ENV_TO_CONFIG_TOML END\n".data =
      ["# GENERATED BY ENV_TO_CONFIG_TOML START".data, [], "[env]".data,
        "A = \"1\"".data, "B = \"2\"".data, [],
        "# GENERATED BY ENV_TO_CONFIG_TOML END".data, []] := by
  refine ⟨?_, rfl, rfl, rfl⟩
  have h0 : get_env_vars "src/test_data/[0-9].env"
      [⟨"1.env", [("A", "1")]⟩, ⟨"2.env", [("B", "2")]⟩] hp =
      .ok (List.insertionSort entryLe (hp [("A", "1"), ("B", "2")])) := rfl
  rw [h0]
  rcases perm_pair_cases _ _ _ hhp with e | e
  · rw [e]
    rfl
  · rw [e]
    rfl

/-- C8 witness: the identity iteration order. -/
theorem c8_witness :
    ((id [("A", "1"), ("B", "2")] : List (String × String)).Perm
      [("A", "1"), ("B", "2")]) ∧
    get_env_vars "src/test_data/[0-9].env"
        [⟨"1.env", [("A", "1")]⟩, ⟨"2.env", [("B", "2")]⟩] id =
      .ok [("A", "1"), ("B", "2")] :=
  ⟨List.Perm.refl _, (c8_end_to_end id (List.Perm.refl _)).1⟩

/-! ## C4 amended: result ordering of collection -/

theorem charListLe_total (a b : List Char) :
    charListLe a b = true ∨ charListLe b a = true := by
  induction a generalizing b with
  | nil => exact Or.inl rfl
  | cons x xs ih =>
    cases b with
    | nil => exact Or.inr rfl
    | cons y ys =>
      rcases Nat.lt_trichotomy x.toNat y.toNat with hlt | heq | hgt
      · left
        simp [charListLe, hlt]
      · have hnlt : ¬ x.toNat < y.toNat := by omega
        have hngt : ¬ y.toNat < x.toNat := by omega
        rcases ih ys with h | h
        · left
          simpa [charListLe, hnlt, hngt] using h
        · right
          simpa [charListLe, hnlt, hngt] using h
      · right
        simp [charListLe, hgt]

theorem charListLe_trans (a : List Char) :
    ∀ b c, charListLe a b = true → charListLe b c = true → charListLe a c = true := by
  induction a with
  | nil => intro b c _ _; rfl
  | cons x xs ih =>
    intro b c h1 h2
    cases b with
    | nil => simp [charListLe] at h1
    | cons y ys =>
      cases c with
      | nil => simp [charListLe] at h2
      | cons z zs =>
        rcases Nat.lt_trichotomy x.toNat y.toNat with hxy | hxy | hxy <;>
          rcases Nat.lt_trichotomy y.toNat z.toNat with hyz | hyz | hyz
        · simp [charListLe, Nat.lt_trans hxy hyz]
        · simp [charListLe, hyz ▸ hxy]
        · rw [show charListLe (y :: ys) (z :: zs) =
            (if y.toNat < z.toNat then true else
              if z.toNat < y.toNat then false else charListLe ys zs) from rfl] at h2
          rw [if_neg (by omega), if_pos hyz] at h2
          cases h2
        · simp [charListLe, hxy ▸ hyz]
        · have hxz : ¬ x.toNat < z.toNat := by omega
          have hzx : ¬ z.toNat < x.toNat := by omega
          have hxy1 : ¬ x.toNat < y.toNat := by omega
          have hyx1 : ¬ y.toNat < x.toNat := by omega
          have hyz1 : ¬ y.toNat < z.toNat := by omega
          have hzy1 : ¬ z.toNat < y.toNat := by omega
          rw [show charListLe (x :: xs) (y :: ys) =
            (if x.toNat < y.toNat then true else
              if y.toNat < x.toNat then false else charListLe xs ys) from rfl,
            if_neg hxy1, if_neg hyx1] at h1
          rw [show charListLe (y :: ys) (z :: zs) =
            (if y.toNat < z.toNat then true else
              if z.toNat < y.toNat then false else charListLe ys zs) from rfl,
            if_neg hyz1, if_neg hzy1] at h2
          rw [show charListLe (x :: xs) (z :: zs) =
            (if x.toNat < z.toNat then true else
              if z.toNat < x.toNat then false else charListLe xs zs) from rfl,
            if_neg hxz, if_neg hzx]
          exact ih ys zs h1 h2
        · rw [show charListLe (y :: ys) (z :: zs) =
            (if y.toNat < z.toNat then true else
              if z.toNat < y.toNat then false else charListLe ys zs) from rfl,
            if_neg (by omega), if_pos hyz] at h2
          cases h2
        · rw [show charListLe (x :: xs) (y :: ys) =
            (if x.toNat < y.toNat then true else
              if y.toNat < x.toNat then false else charListLe xs ys) from rfl,
            if_neg (by omega), if_pos hxy] at h1
          cases h1
        · rw [show charListLe (x :: xs) (y :: ys) =
            (if x.toNat < y.toNat then true else
              if y.toNat < x.toNat then false else charListLe xs ys) from rfl,
            if_neg (by omega), if_pos hxy] at h1
          cases h1
        · rw [show charListLe (x :: xs) (y :: ys) =
            (if x.toNat < y.toNat then true else
              if y.toNat < x.toNat then false else charListLe xs ys) from rfl,
            if_neg (by omega), if_pos hxy] at h1
          cases h1

instance : IsTotal (String × String) entryLe :=
  ⟨fun a b => charListLe_total (lowerChars a.1) (lowerChars b.1)⟩

instance : IsTrans (String × String) entryLe :=
  ⟨fun a b c h1 h2 => charListLe_trans (lowerChars a.1) (lowerChars b.1)
    (lowerChars c.1) h1 h2⟩

/-- C4 (amended): every successful collection returns a vector sorted by the
case-insensitive key order, and that vector is a permutation of the collected
entries; the relative order of case-insensitively-equal keys follows the
`HashMap` iteration order, which is unspecified, so no deterministic tie
order is guaranteed (see the counterexample). -/
theorem c4_sorted_perm (pattern : String) (files : List EnvFile)
    (hp : List (String × String) → List (String × String))
    (out : List (String × String))
    (hperm : ∀ l, (hp l).Perm l)
    (hok : get_env_vars pattern files hp = .ok out) :
    List.Sorted entryLe out ∧
    ∃ seen, collectFiles (sortFiles files) [] = .ok seen ∧
      out.Perm (seen.map (fun x => (x.1, x.2.1))) := by
  unfold get_env_vars at hok
  by_cases hE : files.isEmpty
  · rw [if_pos hE] at hok
    cases hok
  · rw [if_neg hE] at hok
    cases hc : collectFiles (sortFiles files) [] with
    | error e =>
      rw [hc] at hok
      cases hok
    | ok seen =>
      rw [hc] at hok
      injection hok with hok
      refine ⟨?_, seen, rfl, ?_⟩
      · rw [← hok]
        exact List.sorted_insertionSort entryLe _
      · rw [← hok]
        exact (List.perm_insertionSort entryLe _).trans (hperm _)

/-- C4 amended witness: identity iteration order over a single file. -/
theorem c4_witness :
    (∀ l : List (String × String), (id l).Perm l) ∧
    get_env_vars "p" [⟨"1.env", [("A", "1")]⟩] id = .ok [("A", "1")] ∧
    (List.Sorted entryLe [("A", "1")] ∧
      ∃ seen, collectFiles (sortFiles [⟨"1.env", [("A", "1")]⟩]) [] = .ok seen ∧
        ([("A", "1")] : List (String × String)).Perm
          (seen.map (fun x => (x.1, x.2.1)))) :=
  ⟨fun l => List.Perm.refl l, rfl,
    c4_sorted_perm "p" [⟨"1.env", [("A", "1")]⟩] id [("A", "1")]
      (fun l => List.Perm.refl l) rfl⟩

end EnvToConfigToml
